import Mathlib

/-!
Verification of the CLIProxyAPI translation core against its specification.

Go strings are modelled as `List Char` (Unicode code points) with an explicit
UTF-8 byte-length function where Go's `len` (byte count) matters, or as
`List Nat` (raw bytes) where byte-level UTF-8 decoding matters.  JSON documents
are modelled by an inductive JSON tree; Go's dynamic `any` values decoded from
JSON are modelled by a separate tree with rational numbers.  Each definition
mirrors one function of the source.
-/

/-! ## Go string helpers -/

/-- UTF-8 encoded byte length of a single Unicode scalar value, as produced by
Go's `utf8.RuneLen` for valid runes. -/
def utf8CharLen (c : Char) : Nat :=
  if c.toNat < 0x80 then 1
  else if c.toNat < 0x800 then 2
  else if c.toNat < 0x10000 then 3
  else 4

/-- Go `len(s)` on a string: the number of UTF-8 bytes. -/
def goLen (s : List Char) : Nat :=
  (s.map utf8CharLen).sum

/-- Go `unicode.IsSpace`: the White_Space property.  Covers the Latin-1 range
(`\t \n \v \f \r`, space, NEL, NBSP) and the `unicode.White_Space` table. -/
def isGoSpace (c : Char) : Bool :=
  c.toNat = 9 ∨ c.toNat = 10 ∨ c.toNat = 11 ∨ c.toNat = 12 ∨ c.toNat = 13 ∨
  c.toNat = 32 ∨ c.toNat = 0x85 ∨ c.toNat = 0xA0 ∨
  c.toNat = 0x1680 ∨ (0x2000 ≤ c.toNat ∧ c.toNat ≤ 0x200A) ∨
  c.toNat = 0x2028 ∨ c.toNat = 0x2029 ∨ c.toNat = 0x202F ∨
  c.toNat = 0x205F ∨ c.toNat = 0x3000

/-- Go `strings.TrimSpace`: drop leading and trailing White_Space code points. -/
def trimSpaceGo (s : List Char) : List Char :=
  ((s.dropWhile isGoSpace).reverse.dropWhile isGoSpace).reverse

/-! ## Thought-signature cache (source: the `cache` package)

`thoughtSignatureTTL = 2h` is kept abstract as a number of time units; time is
passed explicitly to each operation (`time.Now()` at the call).  The map is an
association list, newest binding first (Go map assignment replaces the old
binding). -/

def minThoughtSignatureLength : Nat := 50

def skipThoughtSignatureLiteral : List Char :=
  "skip_thought_signature_validator".data

/-- One cache entry: signature and absolute expiry time. -/
structure ThoughtSignatureEntry where
  signature : List Char
  expiresAt : Nat
deriving DecidableEq, Repr

/-- The `bySession` map of `thoughtSignatureCache`. -/
abbrev SignatureCache : Type := List (List Char × ThoughtSignatureEntry)

/-- Association-list lookup (first binding wins, mirroring a Go map in which a
key is bound at most once; insertion below removes the previous binding). -/
def alookupSig : SignatureCache → List Char → Option ThoughtSignatureEntry
  | [], _ => none
  | (k, e) :: rest, key => if k = key then some e else alookupSig rest key

/-- Go map assignment `m[k] = e`: replace any existing binding. -/
def mapAssignSig (c : SignatureCache) (k : List Char) (e : ThoughtSignatureEntry) :
    SignatureCache :=
  (k, e) :: (List.filter (fun p => !(p.1 = k : Bool)) c)

/-- Go map delete. -/
def mapDeleteSig (c : SignatureCache) (k : List Char) : SignatureCache :=
  List.filter (fun p => !(p.1 = k : Bool)) c

/-- `CacheSessionThoughtSignature`: trim both arguments, reject empty session
ids or signatures, reject signatures that are neither the sentinel nor of byte
length ≥ 50, otherwise store with expiry `now + ttl`. -/
def CacheSessionThoughtSignature (c : SignatureCache) (sessionID signature : List Char)
    (now ttl : Nat) : SignatureCache :=
  if trimSpaceGo sessionID = [] ∨ trimSpaceGo signature = [] then c
  else if trimSpaceGo signature ≠ skipThoughtSignatureLiteral ∧
      goLen (trimSpaceGo signature) < minThoughtSignatureLength then c
  else mapAssignSig c (trimSpaceGo sessionID)
    { signature := trimSpaceGo signature, expiresAt := now + ttl }

/-- `GetSessionThoughtSignature`: trim the session id; return `""` when absent;
delete and return `""` when expired (`time.Now().After(expiresAt)`, strict);
otherwise return the stored signature. -/
def GetSessionThoughtSignature (c : SignatureCache) (sessionID : List Char)
    (now : Nat) : List Char × SignatureCache :=
  if trimSpaceGo sessionID = [] then ([], c)
  else
    match alookupSig c (trimSpaceGo sessionID) with
    | none => ([], c)
    | some e =>
      if e.expiresAt < now then ([], mapDeleteSig c (trimSpaceGo sessionID))
      else (e.signature, c)

/-- `HasValidThoughtSignature`: trim, reject empty, accept the sentinel,
otherwise require byte length ≥ 50. -/
def HasValidThoughtSignature (signature : List Char) : Bool :=
  let sig := trimSpaceGo signature
  if sig = [] then false
  else if sig = skipThoughtSignatureLiteral then true
  else decide (minThoughtSignatureLength ≤ goLen sig)

/-- An operation against the global cache, with the wall-clock time at which it
runs (only write operations need the TTL). -/
inductive CacheOp where
  | put (sessionID signature : List Char) (now ttl : Nat)
  | get (sessionID : List Char) (now : Nat)
deriving Repr

/-- Apply one operation to the cache state. -/
def applyCacheOp (c : SignatureCache) : CacheOp → SignatureCache
  | .put sid sig now ttl => CacheSessionThoughtSignature c sid sig now ttl
  | .get sid now => (GetSessionThoughtSignature c sid now).2

/-- Run a sequence of operations from a starting state. -/
def runCacheOps (c : SignatureCache) : List CacheOp → SignatureCache
  | [] => c
  | op :: rest => runCacheOps (applyCacheOp c op) rest

/-- A signature the cache is allowed to hold: the sentinel, or byte length
at least 50. -/
def ValidStoredSignature (sig : List Char) : Prop :=
  sig = skipThoughtSignatureLiteral ∨ minThoughtSignatureLength ≤ goLen sig

/-- Invariant: every entry of the cache stores a valid signature. -/
def CacheInv (c : SignatureCache) : Prop :=
  ∀ p ∈ c, ValidStoredSignature p.2.signature

theorem cacheInv_filter (c : SignatureCache) (f : List Char × ThoughtSignatureEntry → Bool)
    (h : CacheInv c) : CacheInv (List.filter f c) := by
  intro p hp
  exact h p (List.mem_of_mem_filter hp)

theorem cacheInv_applyOp (c : SignatureCache) (op : CacheOp) (h : CacheInv c) :
    CacheInv (applyCacheOp c op) := by
  cases op with
  | put sid sig now ttl =>
    simp only [applyCacheOp, CacheSessionThoughtSignature]
    split
    · exact h
    · split
      · exact h
      · rename_i hempty hvalid
        intro p hp
        simp only [mapAssignSig, List.mem_cons] at hp
        rcases hp with hp | hp
        · subst hp
          show ValidStoredSignature (trimSpaceGo sig)
          by_cases hs : trimSpaceGo sig = skipThoughtSignatureLiteral
          · exact Or.inl hs
          · refine Or.inr ?_
            by_contra hlen
            exact hvalid ⟨hs, by omega⟩
        · exact h p (List.mem_of_mem_filter hp)
  | get sid now =>
    simp only [applyCacheOp, GetSessionThoughtSignature]
    split
    · exact h
    · split
      · exact h
      · split
        · exact cacheInv_filter _ _ h
        · exact h

theorem cacheInv_runOps (c : SignatureCache) (ops : List CacheOp) (h : CacheInv c) :
    CacheInv (runCacheOps c ops) := by
  induction ops generalizing c with
  | nil => exact h
  | cons op rest ih => exact ih _ (cacheInv_applyOp c op h)

theorem alookupSig_mem (c : SignatureCache) (k : List Char) (e : ThoughtSignatureEntry)
    (heq : alookupSig c k = some e) : (k, e) ∈ c := by
  induction c with
  | nil => simp [alookupSig] at heq
  | cons p rest ih =>
    simp only [alookupSig] at heq
    split at heq
    · rename_i hk
      simp only [Option.some.injEq] at heq
      subst heq hk
      exact List.mem_cons_self _ _
    · exact List.mem_cons_of_mem _ (ih heq)

theorem get_result_valid_aux (c : SignatureCache) (sid : List Char) (now : Nat)
    (h : CacheInv c) (hne : (GetSessionThoughtSignature c sid now).1 ≠ []) :
    ValidStoredSignature (GetSessionThoughtSignature c sid now).1 := by
  unfold GetSessionThoughtSignature at hne ⊢
  by_cases hsid : trimSpaceGo sid = []
  · simp [hsid] at hne
  · rw [if_neg hsid] at hne ⊢
    rcases heq : alookupSig c (trimSpaceGo sid) with _ | e
    · simp [heq] at hne
    · have hv := h _ (alookupSig_mem c (trimSpaceGo sid) e heq)
      simp only [heq] at hne ⊢
      by_cases hexp : e.expiresAt < now
      · simp [hexp] at hne
      · simpa [hexp] using hv

/-- C6 counterexample: a string of fifty spaces has Go byte length 50, so the
claim ("true iff the string is the sentinel or its length is at least 50")
demands `true`, but `HasValidThoughtSignature` trims whitespace first and
returns `false`. -/
theorem hasValidThoughtSignature_fifty_spaces :
    HasValidThoughtSignature (List.replicate 50 ' ') = false ∧
      minThoughtSignatureLength ≤ goLen (List.replicate 50 ' ') ∧
      List.replicate 50 ' ' ≠ skipThoughtSignatureLiteral := by
  decide

/-- C6 (amended): `HasValidThoughtSignature s` is true iff, after trimming
Unicode whitespace from both ends, the remainder equals the sentinel literal
`skip_thought_signature_validator` or has UTF-8 byte length at least 50; in
particular it is false for the empty string and any all-whitespace string. -/
theorem hasValidThoughtSignature_iff (s : List Char) :
    HasValidThoughtSignature s = true ↔
      (trimSpaceGo s = skipThoughtSignatureLiteral ∨
        minThoughtSignatureLength ≤ goLen (trimSpaceGo s)) := by
  unfold HasValidThoughtSignature
  by_cases h0 : trimSpaceGo s = []
  · rw [if_pos h0, h0]
    simp only [goLen, List.map_nil, List.sum_nil, minThoughtSignatureLength]
    decide
  · rw [if_neg h0]
    by_cases hs : trimSpaceGo s = skipThoughtSignatureLiteral
    · simp [hs]
    · rw [if_neg hs]
      simp [hs, decide_eq_true_iff]

/-- C10: from an empty cache, after any sequence of cache/get operations, every
stored signature — and hence every non-empty string returned by
`GetSessionThoughtSignature` — is the sentinel literal or has byte length at
least 50, because `CacheSessionThoughtSignature` silently rejects every other
value. -/
theorem thoughtSignatureCache_validity (ops : List CacheOp) (sid : List Char) (now : Nat) :
    CacheInv (runCacheOps [] ops) ∧
      ((GetSessionThoughtSignature (runCacheOps [] ops) sid now).1 ≠ [] →
        ValidStoredSignature (GetSessionThoughtSignature (runCacheOps [] ops) sid now).1) := by
  have hinv := cacheInv_runOps [] ops (by intro p hp; simp at hp)
  exact ⟨hinv, fun hne => get_result_valid_aux _ sid now hinv hne⟩

/-- C10 witness: one write of the sentinel followed by a read returns the
sentinel, and the theorem applies to it. -/
theorem thoughtSignatureCache_validity_witness :
    ValidStoredSignature
      (GetSessionThoughtSignature
        (runCacheOps [] [CacheOp.put "s".data skipThoughtSignatureLiteral 0 100])
        "s".data 10).1 :=
  (thoughtSignatureCache_validity
    [CacheOp.put "s".data skipThoughtSignatureLiteral 0 100] "s".data 10).2 (by decide)

/-! ## UTF-8 text sanitisation (source: `SanitizeText` in `util_gemini.go`)

Strings are raw byte lists here.  `decodeRune` mirrors Go's
`utf8.DecodeRuneInString` (first-byte table and accept ranges), `encodeRune`
mirrors `utf8.AppendRune` as used by `strings.Builder.WriteRune`. -/

/-- A UTF-8 continuation byte, `0x80..0xBF`. -/
def isCont (b : Nat) : Bool := 0x80 ≤ b ∧ b ≤ 0xBF

/-- Accept range for the second byte of a three-byte sequence. -/
def accept3 (b0 b1 : Nat) : Bool :=
  if b0 = 0xE0 then 0xA0 ≤ b1 ∧ b1 ≤ 0xBF
  else if b0 = 0xED then 0x80 ≤ b1 ∧ b1 ≤ 0x9F
  else isCont b1

/-- Accept range for the second byte of a four-byte sequence. -/
def accept4 (b0 b1 : Nat) : Bool :=
  if b0 = 0xF0 then 0x90 ≤ b1 ∧ b1 ≤ 0xBF
  else if b0 = 0xF4 then 0x80 ≤ b1 ∧ b1 ≤ 0x8F
  else isCont b1

/-- Go `utf8.DecodeRuneInString`: the first rune of the byte list and the
number of bytes consumed; `(0xFFFD, 1)` marks an invalid byte (including
truncated sequences), `(0xFFFD, 0)` the empty string. -/
def decodeRune : List Nat → Nat × Nat
  | [] => (0xFFFD, 0)
  | b0 :: rest =>
    if b0 < 0x80 then (b0, 1)
    else if b0 < 0xC2 then (0xFFFD, 1)
    else if b0 ≤ 0xDF then
      match rest with
      | b1 :: _ =>
        if isCont b1 then ((b0 - 0xC0) * 0x40 + (b1 - 0x80), 2) else (0xFFFD, 1)
      | [] => (0xFFFD, 1)
    else if b0 ≤ 0xEF then
      match rest with
      | b1 :: b2 :: _ =>
        if accept3 b0 b1 ∧ isCont b2 then
          ((b0 - 0xE0) * 0x1000 + (b1 - 0x80) * 0x40 + (b2 - 0x80), 3)
        else (0xFFFD, 1)
      | _ => (0xFFFD, 1)
    else if b0 ≤ 0xF4 then
      match rest with
      | b1 :: b2 :: b3 :: _ =>
        if accept4 b0 b1 ∧ isCont b2 ∧ isCont b3 then
          ((b0 - 0xF0) * 0x40000 + (b1 - 0x80) * 0x1000 + (b2 - 0x80) * 0x40 + (b3 - 0x80), 4)
        else (0xFFFD, 1)
      | _ => (0xFFFD, 1)
    else (0xFFFD, 1)

/-- Go `utf8.AppendRune`: UTF-8 encoding of one rune; surrogates and
out-of-range values encode the replacement character, as in Go. -/
def encodeRune (r : Nat) : List Nat :=
  if r < 0x80 then [r]
  else if r < 0x800 then [0xC0 + r / 0x40, 0x80 + r % 0x40]
  else if 0xD800 ≤ r ∧ r ≤ 0xDFFF then [0xEF, 0xBF, 0xBD]
  else if r < 0x10000 then [0xE0 + r / 0x1000, 0x80 + r / 0x40 % 0x40, 0x80 + r % 0x40]
  else if r ≤ 0x10FFFF then
    [0xF0 + r / 0x40000, 0x80 + r / 0x1000 % 0x40, 0x80 + r / 0x40 % 0x40, 0x80 + r % 0x40]
  else [0xEF, 0xBF, 0xBD]

/-- The strip condition of `SanitizeText` and `hasProblematicChars`:
`r == 0 || (r < 0x20 && r != '\t' && r != '\n' && r != '\r')`. -/
def stripRune (r : Nat) : Bool :=
  r = 0 ∨ (r < 0x20 ∧ ¬(r = 9) ∧ ¬(r = 10) ∧ ¬(r = 13))

theorem decodeRune_size_pos (s : List Nat) (h : s ≠ []) :
    1 ≤ (decodeRune s).2 := by
  unfold decodeRune
  repeat' split
  all_goals simp_all

/-- The runes produced by Go's `for _, r := range s` loop (each invalid byte
yields `0xFFFD` and advances one byte). -/
def rangeRunes (s : List Nat) : List Nat :=
  if h : s = [] then []
  else (decodeRune s).1 :: rangeRunes (s.drop (decodeRune s).2)
termination_by s.length
decreasing_by
  have h1 := decodeRune_size_pos s h
  have h2 : 0 < s.length := List.length_pos.mpr h
  simp only [List.length_drop]
  omega

/-- `hasProblematicChars`: some rune of the string satisfies the strip
condition. -/
def hasProblematicChars (s : List Nat) : Bool :=
  (rangeRunes s).any stripRune

/-- Go `utf8.ValidString`: every rune decodes without error. -/
def validUTF8 (s : List Nat) : Bool :=
  if h : s = [] then true
  else if (decodeRune s).1 = 0xFFFD ∧ (decodeRune s).2 = 1 then false
  else validUTF8 (s.drop (decodeRune s).2)
termination_by s.length
decreasing_by
  have h1 := decodeRune_size_pos s h
  have h2 : 0 < s.length := List.length_pos.mpr h
  simp only [List.length_drop]
  omega

/-- The scan loop of `SanitizeText`: skip invalid bytes, skip stripped control
characters, re-encode every other rune. -/
def sanitizeLoop (s : List Nat) : List Nat :=
  if h : s = [] then []
  else if (decodeRune s).1 = 0xFFFD ∧ (decodeRune s).2 = 1 then
    sanitizeLoop (s.drop 1)
  else if stripRune (decodeRune s).1 then
    sanitizeLoop (s.drop (decodeRune s).2)
  else
    encodeRune (decodeRune s).1 ++ sanitizeLoop (s.drop (decodeRune s).2)
termination_by s.length
decreasing_by
  · have h2 : 0 < s.length := List.length_pos.mpr h
    simp only [List.length_drop]
    omega
  all_goals
    have h1 := decodeRune_size_pos s h
    have h2 : 0 < s.length := List.length_pos.mpr h
    simp only [List.length_drop]
    omega

/-- `SanitizeText`: fast path returns the input unchanged when it is empty or
valid UTF-8 with no problematic characters; otherwise rebuild via the loop. -/
def SanitizeText (s : List Nat) : List Nat :=
  if s = [] ∨ (validUTF8 s ∧ ¬hasProblematicChars s) then s else sanitizeLoop s

/-- C9 counterexample: `SanitizeText` on the bytes "a\x00b" strips the NUL
byte, contradicting the claim that NUL survives sanitisation. -/
theorem sanitizeText_strips_nul :
    SanitizeText [97, 0, 98] = [97, 98] ∧ SanitizeText [97, 0, 98] ≠ [97, 0, 98] := by
  have h : SanitizeText [97, 0, 98] = [97, 98] := by
    simp [SanitizeText, validUTF8, hasProblematicChars, rangeRunes, sanitizeLoop,
      decodeRune, encodeRune, stripRune]
  exact ⟨h, by simp [h]⟩

/-- A Unicode scalar value (no surrogates, within range). -/
def ValidRune (r : Nat) : Prop := r < 0xD800 ∨ (0xE000 ≤ r ∧ r ≤ 0x10FFFF)

instance (r : Nat) : Decidable (ValidRune r) := by
  unfold ValidRune
  infer_instance

/-- UTF-8 encoding of a rune sequence. -/
def encodeAll : List Nat → List Nat
  | [] => []
  | r :: rest => encodeRune r ++ encodeAll rest

theorem encodeRune_ne_nil (r : Nat) : encodeRune r ≠ [] := by
  unfold encodeRune
  repeat' split
  all_goals simp

theorem encodeRune_length_eq_one (r : Nat) (h : (encodeRune r).length = 1) : r < 0x80 := by
  by_contra hc
  unfold encodeRune at h
  rw [if_neg hc] at h
  repeat' split at h
  all_goals simp at h

theorem decode_encode_1 (r : Nat) (h : r < 0x80) (t : List Nat) :
    decodeRune (encodeRune r ++ t) = (r, 1) := by
  have e : encodeRune r = [r] := by unfold encodeRune; rw [if_pos h]
  rw [e]
  simp [decodeRune, h]

theorem decode_encode_2 (r : Nat) (h1 : ¬r < 0x80) (h2 : r < 0x800) (t : List Nat) :
    decodeRune (encodeRune r ++ t) = (r, 2) := by
  have e : encodeRune r = [0xC0 + r / 0x40, 0x80 + r % 0x40] := by
    unfold encodeRune
    rw [if_neg h1, if_pos h2]
  rw [e]
  simp only [List.cons_append, List.nil_append, decodeRune]
  rw [if_neg (by omega), if_neg (by omega), if_pos (by omega)]
  have hc : isCont (0x80 + r % 0x40) = true := by
    simp only [isCont, decide_eq_true_eq]
    omega
  rw [if_pos hc]
  simp only [Prod.mk.injEq]
  exact ⟨by omega, trivial⟩

theorem decode_encode_3 (r : Nat) (h1 : ¬r < 0x800) (h2 : r < 0x10000)
    (hs : ¬(0xD800 ≤ r ∧ r ≤ 0xDFFF)) (t : List Nat) :
    decodeRune (encodeRune r ++ t) = (r, 3) := by
  have e : encodeRune r = [0xE0 + r / 0x1000, 0x80 + r / 0x40 % 0x40, 0x80 + r % 0x40] := by
    unfold encodeRune
    rw [if_neg (by omega), if_neg (by omega), if_neg hs, if_pos h2]
  rw [e]
  simp only [List.cons_append, List.nil_append, decodeRune]
  rw [if_neg (by omega), if_neg (by omega), if_neg (by omega), if_pos (by omega)]
  have hacc : accept3 (0xE0 + r / 0x1000) (0x80 + r / 0x40 % 0x40) = true := by
    unfold accept3
    by_cases hr : r < 0x1000
    · rw [if_pos (by omega)]
      simp only [decide_eq_true_eq]
      omega
    · by_cases hrd : 0xD000 ≤ r ∧ r < 0xD800
      · rw [if_neg (by omega), if_pos (by omega)]
        simp only [decide_eq_true_eq]
        omega
      · rw [if_neg (by omega), if_neg (by omega)]
        simp only [isCont, decide_eq_true_eq]
        omega
  have hc : isCont (0x80 + r % 0x40) = true := by
    simp only [isCont, decide_eq_true_eq]
    omega
  rw [if_pos (by simp only [hacc, hc, and_self])]
  simp only [Prod.mk.injEq]
  exact ⟨by omega, trivial⟩

theorem decode_encode_4 (r : Nat) (h1 : ¬r < 0x10000) (h2 : r ≤ 0x10FFFF) (t : List Nat) :
    decodeRune (encodeRune r ++ t) = (r, 4) := by
  have e : encodeRune r =
      [0xF0 + r / 0x40000, 0x80 + r / 0x1000 % 0x40, 0x80 + r / 0x40 % 0x40,
        0x80 + r % 0x40] := by
    unfold encodeRune
    rw [if_neg (by omega), if_neg (by omega), if_neg (by omega), if_neg (by omega),
      if_pos h2]
  rw [e]
  simp only [List.cons_append, List.nil_append, decodeRune]
  rw [if_neg (by omega), if_neg (by omega), if_neg (by omega), if_neg (by omega),
    if_pos (by omega)]
  have hacc : accept4 (0xF0 + r / 0x40000) (0x80 + r / 0x1000 % 0x40) = true := by
    unfold accept4
    by_cases hr : r < 0x40000
    · rw [if_pos (by omega)]
      simp only [decide_eq_true_eq]
      omega
    · by_cases hrt : 0x100000 ≤ r
      · rw [if_neg (by omega), if_pos (by omega)]
        simp only [decide_eq_true_eq]
        omega
      · rw [if_neg (by omega), if_neg (by omega)]
        simp only [isCont, decide_eq_true_eq]
        omega
  have hc2 : isCont (0x80 + r / 0x40 % 0x40) = true := by
    simp only [isCont, decide_eq_true_eq]
    omega
  have hc3 : isCont (0x80 + r % 0x40) = true := by
    simp only [isCont, decide_eq_true_eq]
    omega
  rw [if_pos (by simp only [hacc, hc2, hc3, and_self])]
  simp only [Prod.mk.injEq]
  exact ⟨by omega, trivial⟩

theorem decode_encode (r : Nat) (hv : ValidRune r) (t : List Nat) :
    decodeRune (encodeRune r ++ t) = (r, (encodeRune r).length) := by
  have hs : ¬(0xD800 ≤ r ∧ r ≤ 0xDFFF) := by
    rcases hv with h | h
    · omega
    · omega
  by_cases h1 : r < 0x80
  · rw [decode_encode_1 r h1 t]
    unfold encodeRune
    rw [if_pos h1]
    simp
  · by_cases h2 : r < 0x800
    · rw [decode_encode_2 r h1 h2 t]
      unfold encodeRune
      rw [if_neg h1, if_pos h2]
      simp
    · by_cases h3 : r < 0x10000
      · rw [decode_encode_3 r h2 h3 hs t]
        unfold encodeRune
        rw [if_neg h1, if_neg h2, if_neg hs, if_pos h3]
        simp
      · have h4 : r ≤ 0x10FFFF := by
          rcases hv with h | h
          · omega
          · omega
        rw [decode_encode_4 r h3 h4 t]
        unfold encodeRune
        rw [if_neg h1, if_neg h2, if_neg hs, if_neg h3, if_pos h4]
        simp

theorem encodeAll_ne_nil (r : Nat) (rest : List Nat) :
    encodeRune r ++ encodeAll rest ≠ [] := by
  intro hc
  rw [List.append_eq_nil] at hc
  exact encodeRune_ne_nil r hc.1

theorem decode_encode_not_error (r : Nat) (hv : ValidRune r) (t : List Nat) :
    ¬((decodeRune (encodeRune r ++ t)).1 = 0xFFFD ∧
      (decodeRune (encodeRune r ++ t)).2 = 1) := by
  rw [decode_encode r hv t]
  rintro ⟨ha, hb⟩
  simp only at ha hb
  subst ha
  have := encodeRune_length_eq_one 0xFFFD hb
  omega

theorem rangeRunes_encodeAll (rs : List Nat) (hv : ∀ r ∈ rs, ValidRune r) :
    rangeRunes (encodeAll rs) = rs := by
  induction rs with
  | nil => simp [encodeAll, rangeRunes]
  | cons r rest ih =>
    have hvr : ValidRune r := hv r (List.mem_cons_self r rest)
    have hde := decode_encode r hvr (encodeAll rest)
    show rangeRunes (encodeRune r ++ encodeAll rest) = r :: rest
    unfold rangeRunes
    rw [dif_neg (encodeAll_ne_nil r rest), hde]
    simp only [List.drop_left]
    exact congrArg (r :: ·) (ih fun x hx => hv x (List.mem_cons_of_mem r hx))

theorem validUTF8_encodeAll (rs : List Nat) (hv : ∀ r ∈ rs, ValidRune r) :
    validUTF8 (encodeAll rs) = true := by
  induction rs with
  | nil => simp [encodeAll, validUTF8]
  | cons r rest ih =>
    have hvr : ValidRune r := hv r (List.mem_cons_self r rest)
    show validUTF8 (encodeRune r ++ encodeAll rest) = true
    unfold validUTF8
    rw [dif_neg (encodeAll_ne_nil r rest),
      if_neg (decode_encode_not_error r hvr (encodeAll rest)),
      decode_encode r hvr (encodeAll rest)]
    simp only [List.drop_left]
    exact ih fun x hx => hv x (List.mem_cons_of_mem r hx)

theorem sanitizeLoop_encodeAll (rs : List Nat) (hv : ∀ r ∈ rs, ValidRune r) :
    sanitizeLoop (encodeAll rs) = encodeAll (rs.filter (fun r => !stripRune r)) := by
  induction rs with
  | nil => simp [encodeAll, sanitizeLoop]
  | cons r rest ih =>
    have hvr : ValidRune r := hv r (List.mem_cons_self r rest)
    have hde := decode_encode r hvr (encodeAll rest)
    have ihx := ih fun x hx => hv x (List.mem_cons_of_mem r hx)
    show sanitizeLoop (encodeRune r ++ encodeAll rest) = _
    unfold sanitizeLoop
    rw [dif_neg (encodeAll_ne_nil r rest),
      if_neg (decode_encode_not_error r hvr (encodeAll rest)), hde]
    simp only [List.drop_left]
    by_cases hstrip : stripRune r = true
    · rw [if_pos hstrip, ihx, List.filter_cons_of_neg (by simp [hstrip])]
    · rw [if_neg hstrip, ihx, List.filter_cons_of_pos (by simp [hstrip])]
      rfl

/-- Valid-input corollary form: on the UTF-8 encoding of a sequence of Unicode
scalars, `SanitizeText` keeps exactly the runes the strip condition spares. -/
theorem sanitizeText_keeps_exactly_unstripped (rs : List Nat)
    (hv : ∀ r ∈ rs, ValidRune r) :
    SanitizeText (encodeAll rs) = encodeAll (rs.filter (fun r => !stripRune r)) := by
  unfold SanitizeText
  by_cases hfast : encodeAll rs = [] ∨
      (validUTF8 (encodeAll rs) = true ∧ ¬hasProblematicChars (encodeAll rs) = true)
  · rw [if_pos hfast]
    rcases hfast with h0 | ⟨_, hprob⟩
    · cases rs with
      | nil => simp [encodeAll]
      | cons r rest => exact absurd h0 (encodeAll_ne_nil r rest)
    · have hnostrip : ∀ r ∈ rs, stripRune r = false := by
        intro r hr
        by_contra hc
        apply hprob
        unfold hasProblematicChars
        rw [rangeRunes_encodeAll rs hv]
        exact List.any_eq_true.mpr ⟨r, hr, by simpa using hc⟩
      rw [List.filter_eq_self.mpr (fun r hr => by simp [hnostrip r hr])]
  · rw [if_neg hfast]
    exact sanitizeLoop_encodeAll rs hv

/-- Concrete form of the valid-input corollary: the control character 0x01 is
stripped while "a" and tab are kept. -/
theorem sanitizeText_keeps_exactly_unstripped_witness :
    SanitizeText (encodeAll [97, 1, 9]) = encodeAll [97, 9] := by
  have h := sanitizeText_keeps_exactly_unstripped [97, 1, 9] (by decide)
  have hf : List.filter (fun r => !stripRune r) [97, 1, 9] = [97, 9] := by decide
  rw [h, hf]

/-- The character sequence of an arbitrary byte string as Go's decode loop
sees it, with invalid bytes dropped: the spec-side model behind "strips
invalid UTF-8 sequences ... leaves every other character unchanged and in
order". -/
def decodedRunes (s : List Nat) : List Nat :=
  if h : s = [] then []
  else if (decodeRune s).1 = 0xFFFD ∧ (decodeRune s).2 = 1 then
    decodedRunes (s.drop 1)
  else (decodeRune s).1 :: decodedRunes (s.drop (decodeRune s).2)
termination_by s.length
decreasing_by
  · have h2 : 0 < s.length := List.length_pos.mpr h
    simp only [List.length_drop]
    omega
  · have h1 := decodeRune_size_pos s h
    have h2 : 0 < s.length := List.length_pos.mpr h
    simp only [List.length_drop]
    omega

/-- Decoding and re-encoding round-trip: a successfully decoded rune encodes
back to exactly the bytes consumed. -/
theorem encodeRune_decode (s : List Nat) (h : s ≠ [])
    (hok : ¬((decodeRune s).1 = 0xFFFD ∧ (decodeRune s).2 = 1)) :
    encodeRune (decodeRune s).1 = List.take (decodeRune s).2 s := by
  cases s with
  | nil => exact absurd rfl h
  | cons b0 rest =>
    by_cases h1 : b0 < 0x80
    · have hd : decodeRune (b0 :: rest) = (b0, 1) := by simp [decodeRune, h1]
      rw [hd]
      simp [encodeRune, h1, List.take]
    · by_cases h2 : b0 < 0xC2
      · have hd : decodeRune (b0 :: rest) = (0xFFFD, 1) := by simp [decodeRune, h1, h2]
        rw [hd] at hok
        simp at hok
      · by_cases h3 : b0 ≤ 0xDF
        · cases rest with
          | nil =>
            have hd : decodeRune [b0] = (0xFFFD, 1) := by simp [decodeRune, h1, h2, h3]
            rw [hd] at hok
            simp at hok
          | cons b1 rest2 =>
            by_cases hc : isCont b1 = true
            · have hd : decodeRune (b0 :: b1 :: rest2) =
                  ((b0 - 0xC0) * 0x40 + (b1 - 0x80), 2) := by
                simp [decodeRune, h1, h2, h3, hc]
              rw [hd]
              simp only [isCont, decide_eq_true_eq] at hc
              unfold encodeRune
              rw [if_neg (by omega), if_pos (by omega)]
              have e1 : 0xC0 + ((b0 - 0xC0) * 0x40 + (b1 - 0x80)) / 0x40 = b0 := by omega
              have e2 : 0x80 + ((b0 - 0xC0) * 0x40 + (b1 - 0x80)) % 0x40 = b1 := by omega
              rw [e1, e2]
              simp [List.take]
            · have hd : decodeRune (b0 :: b1 :: rest2) = (0xFFFD, 1) := by
                simp [decodeRune, h1, h2, h3, hc]
              rw [hd] at hok
              simp at hok
        · by_cases h4 : b0 ≤ 0xEF
          · match rest with
            | [] =>
              have hd : decodeRune [b0] = (0xFFFD, 1) := by
                simp [decodeRune, h1, h2, h3, h4]
              rw [hd] at hok
              simp at hok
            | [b1] =>
              have hd : decodeRune [b0, b1] = (0xFFFD, 1) := by
                simp [decodeRune, h1, h2, h3, h4]
              rw [hd] at hok
              simp at hok
            | b1 :: b2 :: rest3 =>
              by_cases hacc : accept3 b0 b1 = true ∧ isCont b2 = true
              · have hd : decodeRune (b0 :: b1 :: b2 :: rest3) =
                    ((b0 - 0xE0) * 0x1000 + (b1 - 0x80) * 0x40 + (b2 - 0x80), 3) := by
                  simp [decodeRune, h1, h2, h3, h4, hacc.1, hacc.2]
                rw [hd]
                obtain ⟨ha, hc2⟩ := hacc
                simp only [isCont, decide_eq_true_eq] at hc2
                have hb1 : 0x80 ≤ b1 ∧ b1 ≤ 0xBF ∧
                    (b0 = 0xE0 → 0xA0 ≤ b1) ∧ (b0 = 0xED → b1 ≤ 0x9F) := by
                  by_cases hE0 : b0 = 0xE0
                  · simp [accept3, hE0] at ha
                    refine ⟨by omega, by omega, fun _ => by omega, fun hED => ?_⟩
                    rw [hE0] at hED
                    exact absurd hED (by decide)
                  · by_cases hED : b0 = 0xED
                    · simp [accept3, hE0, hED] at ha
                      exact ⟨by omega, by omega, fun hx => absurd hx hE0,
                        fun _ => by omega⟩
                    · simp [accept3, isCont, hE0, hED] at ha
                      exact ⟨by omega, by omega, fun hx => absurd hx hE0,
                        fun hx => absurd hx hED⟩
                unfold encodeRune
                rw [if_neg (by omega), if_neg (by omega), if_neg (by omega),
                  if_pos (by omega)]
                have e1 : 0xE0 + ((b0 - 0xE0) * 0x1000 + (b1 - 0x80) * 0x40 +
                    (b2 - 0x80)) / 0x1000 = b0 := by omega
                have e2 : 0x80 + ((b0 - 0xE0) * 0x1000 + (b1 - 0x80) * 0x40 +
                    (b2 - 0x80)) / 0x40 % 0x40 = b1 := by omega
                have e3 : 0x80 + ((b0 - 0xE0) * 0x1000 + (b1 - 0x80) * 0x40 +
                    (b2 - 0x80)) % 0x40 = b2 := by omega
                rw [e1, e2, e3]
                simp [List.take]
              · have hd : decodeRune (b0 :: b1 :: b2 :: rest3) = (0xFFFD, 1) := by
                  simp [decodeRune, h1, h2, h3, h4]
                  intro hx1
                  cases hcb : isCont b2 with
                  | false => rfl
                  | true => exact absurd ⟨hx1, hcb⟩ hacc
                rw [hd] at hok
                simp at hok
          · by_cases h5 : b0 ≤ 0xF4
            · match rest with
              | [] =>
                have hd : decodeRune [b0] = (0xFFFD, 1) := by
                  simp [decodeRune, h1, h2, h3, h4, h5]
                rw [hd] at hok
                simp at hok
              | [b1] =>
                have hd : decodeRune [b0, b1] = (0xFFFD, 1) := by
                  simp [decodeRune, h1, h2, h3, h4, h5]
                rw [hd] at hok
                simp at hok
              | [b1, b2] =>
                have hd : decodeRune [b0, b1, b2] = (0xFFFD, 1) := by
                  simp [decodeRune, h1, h2, h3, h4, h5]
                rw [hd] at hok
                simp at hok
              | b1 :: b2 :: b3 :: rest4 =>
                by_cases hacc : accept4 b0 b1 = true ∧ isCont b2 = true ∧ isCont b3 = true
                · have hd : decodeRune (b0 :: b1 :: b2 :: b3 :: rest4) =
                      ((b0 - 0xF0) * 0x40000 + (b1 - 0x80) * 0x1000 +
                        (b2 - 0x80) * 0x40 + (b3 - 0x80), 4) := by
                    simp [decodeRune, h1, h2, h3, h4, h5, hacc.1, hacc.2.1, hacc.2.2]
                  rw [hd]
                  obtain ⟨ha, hc2, hc3⟩ := hacc
                  simp only [isCont, decide_eq_true_eq] at hc2 hc3
                  have hb1 : 0x80 ≤ b1 ∧ b1 ≤ 0xBF ∧
                      (b0 = 0xF0 → 0x90 ≤ b1) ∧ (b0 = 0xF4 → b1 ≤ 0x8F) := by
                    by_cases hF0 : b0 = 0xF0
                    · simp [accept4, hF0] at ha
                      refine ⟨by omega, by omega, fun _ => by omega, fun hF4 => ?_⟩
                      rw [hF0] at hF4
                      exact absurd hF4 (by decide)
                    · by_cases hF4 : b0 = 0xF4
                      · simp [accept4, hF0, hF4] at ha
                        exact ⟨by omega, by omega, fun hx => absurd hx hF0,
                          fun _ => by omega⟩
                      · simp [accept4, isCont, hF0, hF4] at ha
                        exact ⟨by omega, by omega, fun hx => absurd hx hF0,
                          fun hx => absurd hx hF4⟩
                  unfold encodeRune
                  rw [if_neg (by omega), if_neg (by omega), if_neg (by omega),
                    if_neg (by omega), if_pos (by omega)]
                  have e1 : 0xF0 + ((b0 - 0xF0) * 0x40000 + (b1 - 0x80) * 0x1000 +
                      (b2 - 0x80) * 0x40 + (b3 - 0x80)) / 0x40000 = b0 := by omega
                  have e2 : 0x80 + ((b0 - 0xF0) * 0x40000 + (b1 - 0x80) * 0x1000 +
                      (b2 - 0x80) * 0x40 + (b3 - 0x80)) / 0x1000 % 0x40 = b1 := by omega
                  have e3 : 0x80 + ((b0 - 0xF0) * 0x40000 + (b1 - 0x80) * 0x1000 +
                      (b2 - 0x80) * 0x40 + (b3 - 0x80)) / 0x40 % 0x40 = b2 := by omega
                  have e4 : 0x80 + ((b0 - 0xF0) * 0x40000 + (b1 - 0x80) * 0x1000 +
                      (b2 - 0x80) * 0x40 + (b3 - 0x80)) % 0x40 = b3 := by omega
                  rw [e1, e2, e3, e4]
                  simp [List.take]
                · have hd : decodeRune (b0 :: b1 :: b2 :: b3 :: rest4) = (0xFFFD, 1) := by
                    simp [decodeRune, h1, h2, h3, h4, h5]
                    intro hx1 hx2
                    cases hcb : isCont b3 with
                    | false => rfl
                    | true => exact absurd ⟨hx1, hx2, hcb⟩ hacc
                  rw [hd] at hok
                  simp at hok
            · have hd : decodeRune (b0 :: rest) = (0xFFFD, 1) := by
                simp [decodeRune, h1, h2, h3, h4, h5]
              rw [hd] at hok
              simp at hok

/-- One step of `validUTF8`: a valid non-empty string decodes without error
and its tail is valid. -/
theorem validUTF8_step (s : List Nat) (h : s ≠ []) (hv : validUTF8 s = true) :
    ¬((decodeRune s).1 = 0xFFFD ∧ (decodeRune s).2 = 1) ∧
      validUTF8 (s.drop (decodeRune s).2) = true := by
  unfold validUTF8 at hv
  rw [dif_neg h] at hv
  by_cases herr : (decodeRune s).1 = 0xFFFD ∧ (decodeRune s).2 = 1
  · rw [if_pos herr] at hv
    exact absurd hv (by decide)
  · rw [if_neg herr] at hv
    exact ⟨herr, hv⟩

/-- On valid UTF-8, re-encoding the ranged runes reproduces the bytes. -/
theorem encodeAll_rangeRunes (s : List Nat) (hv : validUTF8 s = true) :
    encodeAll (rangeRunes s) = s := by
  by_cases h : s = []
  · subst h
    simp [rangeRunes, encodeAll]
  · obtain ⟨hok, hrest⟩ := validUTF8_step s h hv
    unfold rangeRunes
    rw [dif_neg h]
    show encodeRune (decodeRune s).1 ++ encodeAll (rangeRunes (s.drop (decodeRune s).2)) = s
    rw [encodeAll_rangeRunes (s.drop (decodeRune s).2) hrest, encodeRune_decode s h hok]
    exact List.take_append_drop _ s
termination_by s.length
decreasing_by
  have h1 := decodeRune_size_pos s h
  have h2 : 0 < s.length := List.length_pos.mpr h
  simp only [List.length_drop]
  omega

/-- On valid UTF-8 the error-skipping branch never fires, so the decoded
characters are exactly the ranged runes. -/
theorem decodedRunes_valid (s : List Nat) (hv : validUTF8 s = true) :
    decodedRunes s = rangeRunes s := by
  by_cases h : s = []
  · subst h
    simp [decodedRunes, rangeRunes]
  · obtain ⟨hok, hrest⟩ := validUTF8_step s h hv
    unfold decodedRunes rangeRunes
    rw [dif_neg h, dif_neg h, if_neg hok,
      decodedRunes_valid (s.drop (decodeRune s).2) hrest]
termination_by s.length
decreasing_by
  have h1 := decodeRune_size_pos s h
  have h2 : 0 < s.length := List.length_pos.mpr h
  simp only [List.length_drop]
  omega

/-- The scan loop keeps, re-encoded and in order, exactly the decodable runes
the strip condition spares. -/
theorem sanitizeLoop_model (s : List Nat) :
    sanitizeLoop s = encodeAll ((decodedRunes s).filter (fun r => !stripRune r)) := by
  by_cases h : s = []
  · subst h
    simp [sanitizeLoop, decodedRunes, encodeAll]
  · unfold sanitizeLoop decodedRunes
    rw [dif_neg h, dif_neg h]
    by_cases herr : (decodeRune s).1 = 0xFFFD ∧ (decodeRune s).2 = 1
    · rw [if_pos herr, if_pos herr]
      exact sanitizeLoop_model (s.drop 1)
    · rw [if_neg herr, if_neg herr]
      by_cases hstrip : stripRune (decodeRune s).1 = true
      · rw [if_pos hstrip, List.filter_cons_of_neg (by simp [hstrip])]
        exact sanitizeLoop_model (s.drop (decodeRune s).2)
      · rw [if_neg hstrip, List.filter_cons_of_pos (by simp [hstrip])]
        show _ ++ _ = encodeRune (decodeRune s).1 ++
          encodeAll ((decodedRunes (s.drop (decodeRune s).2)).filter (fun r => !stripRune r))
        rw [sanitizeLoop_model (s.drop (decodeRune s).2)]
termination_by s.length
decreasing_by
  · have h2 : 0 < s.length := List.length_pos.mpr h
    simp only [List.length_drop]
    omega
  all_goals
    have h1 := decodeRune_size_pos s h
    have h2 : 0 < s.length := List.length_pos.mpr h
    simp only [List.length_drop]
    omega

/-- C9 (amended): over an arbitrary byte string, `SanitizeText` strips invalid
UTF-8 sequences, NUL, and the control characters below 0x20 except tab,
newline and carriage return (NUL is stripped, not preserved), and leaves every
other character unchanged and in order: the result is exactly the re-encoding
of the decodable characters the strip condition spares — so in particular a
string with nothing to strip is returned identical. -/
theorem sanitizeText_model (s : List Nat) :
    SanitizeText s = encodeAll ((decodedRunes s).filter (fun r => !stripRune r)) := by
  unfold SanitizeText
  by_cases hfast : s = [] ∨ (validUTF8 s = true ∧ ¬hasProblematicChars s = true)
  · rw [if_pos hfast]
    rcases hfast with h0 | ⟨hval, hprob⟩
    · subst h0
      simp [decodedRunes, encodeAll]
    · rw [decodedRunes_valid s hval]
      have hall : ∀ r ∈ rangeRunes s, stripRune r = false := by
        intro r hr
        by_contra hc
        apply hprob
        unfold hasProblematicChars
        exact List.any_eq_true.mpr ⟨r, hr, by simpa using hc⟩
      rw [List.filter_eq_self.mpr (fun r hr => by simp [hall r hr])]
      exact (encodeAll_rangeRunes s hval).symm
  · rw [if_neg hfast]
    exact sanitizeLoop_model s

/-! ## JSON model (gjson view)

`JVal` models a parsed JSON document; numbers are modelled as integers (the
claims under verification only involve integral token counts and flag values).
The `j…Go` helpers mirror the `gjson.Result` accessors used by the source. -/

inductive JVal where
  | null
  | bool (b : Bool)
  | num (n : Int)
  | str (s : String)
  | arr (xs : List JVal)
  | obj (fields : List (String × JVal))
deriving Repr

/-- First binding for a key in a JSON object (gjson returns the first match). -/
def lookupField : List (String × JVal) → String → Option JVal
  | [], _ => none
  | (k, v) :: rest, key => if k = key then some v else lookupField rest key

/-- `gjson.Get` for a single-key path: a member of an object, else missing. -/
def jget (v : JVal) (key : String) : Option JVal :=
  match v with
  | .obj fields => lookupField fields key
  | _ => none

/-- `gjson.Get` for a two-component path `a.b`. -/
def jget2 (v : JVal) (k1 k2 : String) : Option JVal :=
  match jget v k1 with
  | some w => jget w k2
  | none => none

/-- `gjson.Result.Array()`: a JSON array yields its elements, null or a missing
result yields the empty list, any other value yields itself as a singleton. -/
def jArrayGo : Option JVal → List JVal
  | none => []
  | some .null => []
  | some (.arr xs) => xs
  | some v => [v]

/-- Comma-join for rendering. -/
def joinComma : List String → String
  | [] => ""
  | [x] => x
  | x :: rest => x ++ "," ++ joinComma rest

/-- Canonical rendering of a JSON value, standing in for `gjson.Result.Raw`
(the source keeps the raw input slice; the claims never depend on its exact
whitespace). -/
def renderJSON : JVal → String
  | .null => "null"
  | .bool true => "true"
  | .bool false => "false"
  | .num n => toString n
  | .str s => "\"" ++ s ++ "\""
  | .arr xs => "[" ++ joinComma (xs.attach.map (fun x => renderJSON x.1)) ++ "]"
  | .obj fs =>
    "\x7b" ++
      joinComma (fs.attach.map (fun p => "\"" ++ p.1.1 ++ "\":" ++ renderJSON p.1.2)) ++
      "\x7d"
termination_by v => sizeOf v
decreasing_by
  · have hm := List.sizeOf_lt_of_mem x.2
    simp only [JVal.arr.sizeOf_spec]
    omega
  · obtain ⟨⟨k, w⟩, hp⟩ := p
    have hm := List.sizeOf_lt_of_mem hp
    simp only [Prod.mk.sizeOf_spec] at hm
    simp only [JVal.obj.sizeOf_spec]
    omega

/-- `gjson.Result.String()`. -/
def jstrGo : JVal → String
  | .null => ""
  | .bool true => "true"
  | .bool false => "false"
  | .num n => toString n
  | .str s => s
  | .arr xs => renderJSON (.arr xs)
  | .obj fs => renderJSON (.obj fs)

/-- `String()` of a possibly missing result (missing reads as `""`). -/
def jstrOpt : Option JVal → String
  | none => ""
  | some v => jstrGo v

/-- Digit-run parser used by gjson's `parseInt`. -/
def parseDigits (ds : List Char) : Option Nat :=
  match ds with
  | [] => none
  | _ =>
    if ds.all (fun c => '0' ≤ c ∧ c ≤ '9') then
      some (ds.foldl (fun acc c => acc * 10 + (c.toNat - 48)) 0)
    else none

/-- gjson's `parseInt` on a string: optional minus sign and digits, 0 on any
other shape. -/
def parseIntGj (s : String) : Int :=
  match s.data with
  | '-' :: ds =>
    match parseDigits ds with
    | some n => -(n : Int)
    | none => 0
  | ds =>
    match parseDigits ds with
    | some n => (n : Int)
    | none => 0

/-- `gjson.Result.Int()` of a possibly missing result: numbers directly,
`true` as 1, strings via `parseInt`, everything else 0. -/
def jintGo : Option JVal → Int
  | some (.num n) => n
  | some (.bool true) => 1
  | some (.str s) => parseIntGj s
  | _ => 0

/-- `gjson.Result.Bool()`: `true`, boolean-looking strings accepted by Go's
`strconv.ParseBool`, and non-zero numbers read as true. -/
def jboolGo : Option JVal → Bool
  | some (.bool b) => b
  | some (.str s) =>
    s = "1" ∨ s = "t" ∨ s = "T" ∨ s = "TRUE" ∨ s = "true" ∨ s = "True"
  | some (.num n) => !(n = 0 : Bool)
  | _ => false

/-! ## Gemini streaming parser (source: `to_ir` Gemini file) -/

/-- The IR `FinishReason` constants (`stop`, `length`, `tool_calls`,
`content_filter`, `unknown`); the Go zero value `""` is modelled as
`Option.none` at use sites. -/
inductive FinishReason where
  | stop
  | length
  | toolCalls
  | contentFilter
  | unknown
deriving Repr, DecidableEq

/-- ASCII model of Go `strings.ToUpper` (all reasons compared are ASCII). -/
def toUpperGo (s : String) : String :=
  String.mk (s.data.map fun c =>
    if 'a' ≤ c ∧ c ≤ 'z' then Char.ofNat (c.toNat - 32) else c)

/-- `MapGeminiFinishReason` (first `util_gemini.go` variant; the second variant
differs only in mapping `MALFORMED_FUNCTION_CALL` to `toolCalls`, which does
not change any claim verified here: both results are non-empty). -/
def MapGeminiFinishReason (geminiReason : String) : FinishReason :=
  if toUpperGo geminiReason = "STOP" ∨ toUpperGo geminiReason = "FINISH_REASON_UNSPECIFIED" ∨
      toUpperGo geminiReason = "UNKNOWN" then .stop
  else if toUpperGo geminiReason = "MAX_TOKENS" then .length
  else if toUpperGo geminiReason = "SAFETY" ∨ toUpperGo geminiReason = "RECITATION" then
    .contentFilter
  else if toUpperGo geminiReason = "MALFORMED_FUNCTION_CALL" then .unknown
  else if toUpperGo geminiReason = "UNEXPECTED_TOOL_CALL" then .unknown
  else .unknown

/-- The IR `Usage` fields populated by the Gemini parser. -/
structure Usage where
  promptTokens : Int := 0
  completionTokens : Int := 0
  totalTokens : Int := 0
  thoughtsTokenCount : Int := 0
  cachedTokens : Int := 0
deriving Repr, DecidableEq

/-- `parseGeminiUsage`: absent `usageMetadata` gives no usage; otherwise read
the token counts, subtract cached tokens from prompt tokens clamping at zero,
and add thought tokens. -/
def parseGeminiUsage (parsed : JVal) : Option Usage :=
  match jget parsed "usageMetadata" with
  | none => none
  | some u =>
    let promptTokens := jintGo (jget u "promptTokenCount")
    let thoughtsTokens := jintGo (jget u "thoughtsTokenCount")
    let cachedTokens := jintGo (jget u "cachedContentTokenCount")
    let adjusted :=
      if promptTokens - cachedTokens < 0 then 0 else promptTokens - cachedTokens
    some
      { promptTokens := adjusted + thoughtsTokens
        completionTokens := jintGo (jget u "candidatesTokenCount")
        totalTokens := jintGo (jget u "totalTokenCount")
        thoughtsTokenCount := thoughtsTokens
        cachedTokens := cachedTokens }

/-- The IR `ToolCall` fields populated by the Gemini chunk parser.  `args` and
`partialArgs` are kept structural (the Go code stores their raw JSON text;
`ValidateAndNormalizeJSON` re-serialises the same structure). -/
structure GToolCall where
  id : String
  name : String
  args : JVal
  partialArgs : Option JVal
  thoughtSignature : String
deriving Repr

/-- The event types the Gemini chunk parser can emit. -/
inductive GEventType where
  | token
  | reasoning
  | toolCall
  | image
  | finish
deriving Repr, DecidableEq

/-- The IR `UnifiedEvent` fields populated by the Gemini chunk parser. -/
structure GEvent where
  type : GEventType
  content : String := ""
  reasoning : String := ""
  toolCall : Option GToolCall := none
  image : Option (String × String) := none
  thoughtSignature : String := ""
  usage : Option Usage := none
  finishReason : Option FinishReason := none
deriving Repr

/-- `parseGeminiInlineImage`: `inlineData`/`inline_data` with a non-empty
`data`, MIME type defaulted to `image/png`. -/
def parseGeminiInlineImage (part : JVal) : Option (String × String) :=
  let inlineData :=
    match jget part "inlineData" with
    | some v => some v
    | none => jget part "inline_data"
  match inlineData with
  | none => none
  | some d =>
    if jstrOpt (jget d "data") = "" then none
    else
      some
        (if jstrOpt (jget d "mimeType") ≠ "" then jstrOpt (jget d "mimeType")
          else if jstrOpt (jget d "mime_type") ≠ "" then jstrOpt (jget d "mime_type")
          else "image/png",
          jstrOpt (jget d "data"))

/-- One iteration of the parts loop of `ParseGeminiChunk`; `genId` stands for
`ir.GenToolCallIDWithName` (random ids are out of a pure model's scope).  A
part contributes at most one event; `none` marks a skipped part. -/
def parseGeminiPart (genId : String → String) (part : JVal) : Option GEvent :=
  let ts0 := jstrOpt (jget part "thoughtSignature")
  let ts := if ts0 = "" then jstrOpt (jget part "thought_signature") else ts0
  if (jget part "text").isSome ∧ jstrOpt (jget part "text") ≠ "" then
    if jboolGo (jget part "thought") then
      some { type := .reasoning, reasoning := jstrOpt (jget part "text"),
             thoughtSignature := ts }
    else
      some { type := .token, content := jstrOpt (jget part "text"),
             thoughtSignature := ts }
  else
    match jget part "functionCall" with
    | some fc =>
      if jstrOpt (jget fc "name") ≠ "" then
        some { type := .toolCall,
               toolCall := some
                 { id :=
                     if jstrOpt (jget fc "id") = "" then genId (jstrOpt (jget fc "name"))
                     else jstrOpt (jget fc "id"),
                   name := jstrOpt (jget fc "name"),
                   args := (jget fc "args").getD (JVal.obj []),
                   partialArgs := jget fc "partialArgs",
                   thoughtSignature := ts },
               thoughtSignature := ts }
      else none
    | none =>
      match parseGeminiInlineImage part with
      | some img => some { type := .image, image := some img, thoughtSignature := ts }
      | none =>
        if ts ≠ "" then some { type := .reasoning, reasoning := "", thoughtSignature := ts }
        else none

/-- The input of `ParseGeminiChunk` after `ExtractSSEData` has stripped the SSE
framing: nothing left, the literal `[DONE]`, bytes rejected by
`gjson.ValidBytes`, or a parsed JSON document. -/
inductive GeminiChunkInput where
  | empty
  | done
  | invalidJSON
  | json (v : JVal)

/-- `ParseGeminiChunk`: `[DONE]` yields a single bare `Finish`; invalid JSON is
an error (`none`); otherwise parts become events and a `Finish` carrying the
usage is appended exactly when `candidates[0].finishReason` is present. -/
def ParseGeminiChunk (genId : String → String) :
    GeminiChunkInput → Option (List GEvent)
  | .empty => some []
  | .done => some [{ type := .finish }]
  | .invalidJSON => none
  | .json parsed =>
    let usage := parseGeminiUsage parsed
    match jArrayGo (jget parsed "candidates") with
    | [] => some []
    | c :: _ =>
      let evs := (jArrayGo (jget2 c "content" "parts")).filterMap (parseGeminiPart genId)
      match jget c "finishReason" with
      | some frv =>
        some (evs ++
          [{ type := .finish, usage := usage,
             finishReason := some (MapGeminiFinishReason (jstrGo frv)) }])
      | none => some evs

/-- Whether an event list contains a `Finish` event. -/
def hasFinishEvent (evs : List GEvent) : Bool :=
  evs.any (fun e => e.type = .finish)

/-- Whether a chunk document carries an explicit `candidates[0].finishReason`. -/
def hasExplicitFinishReason (v : JVal) : Bool :=
  match jArrayGo (jget v "candidates") with
  | [] => false
  | c :: _ => (jget c "finishReason").isSome

theorem parseGeminiPart_not_finish (genId : String → String) (part : JVal) (e : GEvent)
    (h : parseGeminiPart genId part = some e) : e.type ≠ GEventType.finish := by
  simp only [parseGeminiPart] at h
  repeat' split at h
  all_goals simp only [Option.some.injEq, reduceCtorEq] at h
  all_goals first
    | exact absurd h (by simp)
    | (subst h; simp)

/-- C1: a chunk fed to `ParseGeminiChunk` produces a `Finish` event iff it is
the literal `[DONE]` terminator or its JSON carries an explicit
`candidates[0].finishReason`; in particular `usageMetadata` alone (with any
`totalTokenCount`) never produces a `Finish`. -/
theorem geminiChunk_finish_iff (genId : String → String) (input : GeminiChunkInput)
    (evs : List GEvent) (h : ParseGeminiChunk genId input = some evs) :
    (hasFinishEvent evs = true ↔
      (input = .done ∨ ∃ v, input = .json v ∧ hasExplicitFinishReason v = true)) := by
  cases input with
  | empty =>
    simp only [ParseGeminiChunk, Option.some.injEq] at h
    subst h
    simp [hasFinishEvent]
  | done =>
    simp only [ParseGeminiChunk, Option.some.injEq] at h
    subst h
    simp [hasFinishEvent]
  | invalidJSON => exact absurd h (by simp [ParseGeminiChunk])
  | json v =>
    simp only [ParseGeminiChunk] at h
    split at h
    · rename_i hc
      simp only [Option.some.injEq] at h
      subst h
      constructor
      · intro hfin
        simp [hasFinishEvent] at hfin
      · rintro (hd | ⟨v', hv', hx⟩)
        · exact GeminiChunkInput.noConfusion hd
        · injection hv' with hv'
          subst hv'
          simp [hasExplicitFinishReason, hc] at hx
    · rename_i c rest hc
      split at h
      · rename_i frv hf
        simp only [Option.some.injEq] at h
        subst h
        constructor
        · intro _
          exact Or.inr ⟨v, rfl, by simp [hasExplicitFinishReason, hc, hf]⟩
        · intro _
          simp [hasFinishEvent]
      · rename_i hf
        simp only [Option.some.injEq] at h
        subst h
        constructor
        · intro hfin
          rw [hasFinishEvent, List.any_eq_true] at hfin
          obtain ⟨e, he, hty⟩ := hfin
          rw [List.mem_filterMap] at he
          obtain ⟨part, _, hpe⟩ := he
          exact absurd (by simpa using hty) (parseGeminiPart_not_finish genId part e hpe)
        · rintro (hd | ⟨v', hv', hx⟩)
          · exact GeminiChunkInput.noConfusion hd
          · injection hv' with hv'
            subst hv'
            simp [hasExplicitFinishReason, hc, hf] at hx

/-- C1 witness: a chunk with one text part, `usageMetadata` with
`totalTokenCount = 7 > 0`, and no `finishReason` yields no `Finish` event. -/
theorem geminiChunk_finish_iff_witness :
    hasFinishEvent
      ((ParseGeminiChunk (fun n => n)
        (.json (JVal.obj
          [("candidates", JVal.arr
            [JVal.obj [("content", JVal.obj
              [("parts", JVal.arr [JVal.obj [("text", JVal.str "hi")]])])]]),
           ("usageMetadata", JVal.obj [("totalTokenCount", JVal.num 7)])]))).getD []) =
      false := by
  have h := geminiChunk_finish_iff (fun n => n)
    (.json (JVal.obj
      [("candidates", JVal.arr
        [JVal.obj [("content", JVal.obj
          [("parts", JVal.arr [JVal.obj [("text", JVal.str "hi")]])])]]),
       ("usageMetadata", JVal.obj [("totalTokenCount", JVal.num 7)])]))
    [{ type := .token, content := "hi" }] rfl
  have hpc : ParseGeminiChunk (fun n => n)
      (.json (JVal.obj
        [("candidates", JVal.arr
          [JVal.obj [("content", JVal.obj
            [("parts", JVal.arr [JVal.obj [("text", JVal.str "hi")]])])]]),
         ("usageMetadata", JVal.obj [("totalTokenCount", JVal.num 7)])])) =
      some [{ type := .token, content := "hi" }] := rfl
  rw [hpc]
  simp only [Option.getD_some]
  rw [Bool.eq_false_iff]
  intro hfin
  rcases h.mp hfin with hd | ⟨v', hv', hx⟩
  · exact GeminiChunkInput.noConfusion hd
  · injection hv' with hv'
    rw [← hv'] at hx
    exact absurd hx (by intro hxx; exact Bool.noConfusion (hxx.symm.trans rfl))

/-- C5: whenever a Gemini document carries `usageMetadata` with numeric
`promptTokenCount`, `cachedContentTokenCount` and `thoughtsTokenCount`, the
stored usage subtracts the cached tokens from the prompt tokens (clamping at
zero, then adding the thought tokens) and records the cached count in
`CachedTokens`. -/
theorem parseGeminiUsage_subtracts_cached (v u : JVal) (p c t : Int)
    (h : jget v "usageMetadata" = some u)
    (hp : jget u "promptTokenCount" = some (JVal.num p))
    (hc : jget u "cachedContentTokenCount" = some (JVal.num c))
    (ht : jget u "thoughtsTokenCount" = some (JVal.num t)) :
    ∃ usg, parseGeminiUsage v = some usg ∧
      usg.promptTokens = (if p - c < 0 then 0 else p - c) + t ∧
      usg.cachedTokens = c := by
  simp only [parseGeminiUsage, h, hp, hc, ht, jintGo]
  exact ⟨_, rfl, rfl, rfl⟩

/-- C5 witness: 100 prompt tokens with 30 cached and 5 thought tokens store
`PromptTokens = 75` and `CachedTokens = 30`. -/
theorem parseGeminiUsage_subtracts_cached_witness :
    ∃ usg,
      parseGeminiUsage
        (JVal.obj [("usageMetadata", JVal.obj
          [("promptTokenCount", JVal.num 100),
           ("cachedContentTokenCount", JVal.num 30),
           ("thoughtsTokenCount", JVal.num 5)])]) = some usg ∧
      usg.promptTokens = 75 ∧ usg.cachedTokens = 30 := by
  obtain ⟨usg, h1, h2, h3⟩ := parseGeminiUsage_subtracts_cached
    (JVal.obj [("usageMetadata", JVal.obj
      [("promptTokenCount", JVal.num 100),
       ("cachedContentTokenCount", JVal.num 30),
       ("thoughtsTokenCount", JVal.num 5)])])
    (JVal.obj
      [("promptTokenCount", JVal.num 100),
       ("cachedContentTokenCount", JVal.num 30),
       ("thoughtsTokenCount", JVal.num 5)])
    100 30 5 rfl rfl rfl rfl
  refine ⟨usg, h1, ?_, h3⟩
  rw [h2]
  norm_num

/-! ## Codex grep-argument sanitiser (source: the Codex `to_ir` file) -/

/-- Remove the first binding of a key (as `sjson.Delete` does on a top-level
member path). -/
def deleteFirst : List (String × JVal) → String → List (String × JVal)
  | [], _ => []
  | (k, v) :: rest, key => if k = key then rest else (k, v) :: deleteFirst rest key

/-- `sjson.Delete` on a top-level key: only objects change. -/
def sjsonDelete (v : JVal) (key : String) : JVal :=
  match v with
  | .obj fields => .obj (deleteFirst fields key)
  | w => w

/-- The `isZero` closure of `sanitizeCodexGrepArgs`: missing values, the number
0, the strings `"0"`, `"0.0"`, `""`, and any other value whose `Int()` is 0. -/
def isZeroG : Option JVal → Bool
  | none => true
  | some (.num n) => n = 0
  | some (.str s) => s = "0" ∨ s = "0.0" ∨ s = ""
  | some v => jintGo (some v) = 0

/-- `sanitizeCodexGrepArgs` (the model input is already a parsed JSON value,
standing for an args string accepted by `gjson.Valid`): for the grep tools —
or unnamed tools whose args look like grep args — when `-C` is present
together with `-A` or `-B`, a non-zero `-C` deletes `-A` and `-B`, and a zero
`-C` deletes itself; everything else is returned unchanged. -/
def sanitizeCodexGrepArgs (toolName : String) (args : JVal) : JVal :=
  if ¬(toolName = "grep" ∨ toolName = "ripgrep_raw_search") ∧ toolName ≠ "" then args
  else if ¬(toolName = "grep" ∨ toolName = "ripgrep_raw_search") ∧
      ¬((jget args "pattern").isSome ∧ (jget args "-C").isSome ∧
        ((jget args "-A").isSome ∨ (jget args "-B").isSome)) then args
  else if ¬(jget args "-C").isSome ∨
      (¬(jget args "-A").isSome ∧ ¬(jget args "-B").isSome) then args
  else if ¬isZeroG (jget args "-C") then sjsonDelete (sjsonDelete args "-A") "-B"
  else sjsonDelete args "-C"

theorem lookupField_deleteFirst_ne (fields : List (String × JVal)) (key k : String)
    (hne : k ≠ key) :
    lookupField (deleteFirst fields key) k = lookupField fields k := by
  induction fields with
  | nil => rfl
  | cons p rest ih =>
    obtain ⟨pk, pv⟩ := p
    simp only [deleteFirst]
    by_cases hpk : pk = key
    · rw [if_pos hpk]
      show lookupField rest k = lookupField ((pk, pv) :: rest) k
      simp only [lookupField]
      rw [if_neg (fun hh => hne (hh.symm.trans hpk))]
    · rw [if_neg hpk]
      simp only [lookupField]
      by_cases hpkk : pk = k
      · rw [if_pos hpkk, if_pos hpkk]
      · rw [if_neg hpkk, if_neg hpkk]
        exact ih

theorem jget_sjsonDelete_ne (v : JVal) (key k : String) (hne : k ≠ key) :
    jget (sjsonDelete v key) k = jget v k := by
  cases v with
  | obj fields => exact lookupField_deleteFirst_ne fields key k hne
  | null => rfl
  | bool b => rfl
  | num n => rfl
  | str s => rfl
  | arr xs => rfl

/-- C4 counterexample: for the grep tool, `-C` present with value 0 but no
`-A`/`-B` alongside is returned unchanged — `-C` is NOT deleted, contrary to
the claim's unconditional "else if -C is present with a zero value then -C is
deleted". -/
theorem sanitizeCodexGrepArgs_keeps_lone_zero_c :
    sanitizeCodexGrepArgs "grep" (JVal.obj [("pattern", JVal.str "x"), ("-C", JVal.num 0)]) =
        JVal.obj [("pattern", JVal.str "x"), ("-C", JVal.num 0)] ∧
      jget (sanitizeCodexGrepArgs "grep"
          (JVal.obj [("pattern", JVal.str "x"), ("-C", JVal.num 0)])) "-C" =
        some (JVal.num 0) :=
  ⟨rfl, rfl⟩

/-- C4 (amended): for grep/ripgrep_raw_search args, the conflict rules apply
only when `-C` is present together with at least one of `-A`/`-B`: a non-zero
`-C` deletes `-A` and `-B`, a zero `-C` (0, "0", "0.0", "") deletes `-C`;
otherwise — in particular when `-C` stands alone — the args are unchanged; and
in every case all keys other than `-A`, `-B`, `-C` (pattern included) are left
unchanged. -/
theorem sanitizeCodexGrepArgs_spec (toolName : String) (args : JVal)
    (hknown : toolName = "grep" ∨ toolName = "ripgrep_raw_search") :
    ((¬(jget args "-C").isSome ∨
        (¬(jget args "-A").isSome ∧ ¬(jget args "-B").isSome)) →
      sanitizeCodexGrepArgs toolName args = args) ∧
    ((jget args "-C").isSome →
      ((jget args "-A").isSome ∨ (jget args "-B").isSome) →
      sanitizeCodexGrepArgs toolName args =
        (if isZeroG (jget args "-C") then sjsonDelete args "-C"
         else sjsonDelete (sjsonDelete args "-A") "-B")) ∧
    (∀ k, k ≠ "-A" → k ≠ "-B" → k ≠ "-C" →
      jget (sanitizeCodexGrepArgs toolName args) k = jget args k) := by
  have hname : ¬(¬(toolName = "grep" ∨ toolName = "ripgrep_raw_search") ∧ toolName ≠ "") :=
    fun hcon => hcon.1 hknown
  have hname2 : ¬(¬(toolName = "grep" ∨ toolName = "ripgrep_raw_search") ∧
      ¬((jget args "pattern").isSome ∧ (jget args "-C").isSome ∧
        ((jget args "-A").isSome ∨ (jget args "-B").isSome))) :=
    fun hcon => hcon.1 hknown
  refine ⟨?_, ?_, ?_⟩
  · intro hguard
    unfold sanitizeCodexGrepArgs
    rw [if_neg hname, if_neg hname2, if_pos hguard]
  · intro hc hab
    unfold sanitizeCodexGrepArgs
    have hguardneg : ¬(¬(jget args "-C").isSome ∨
        (¬(jget args "-A").isSome ∧ ¬(jget args "-B").isSome)) := by
      rintro (h | ⟨ha, hb⟩)
      · exact h hc
      · rcases hab with hx | hx
        · exact ha hx
        · exact hb hx
    rw [if_neg hname, if_neg hname2, if_neg hguardneg]
    by_cases hz : isZeroG (jget args "-C") = true
    · rw [if_neg (fun hh => hh hz), if_pos hz]
    · rw [if_pos hz, if_neg hz]
  · intro k hka hkb hkc
    unfold sanitizeCodexGrepArgs
    rw [if_neg hname, if_neg hname2]
    by_cases hguard : ¬(jget args "-C").isSome ∨
        (¬(jget args "-A").isSome ∧ ¬(jget args "-B").isSome)
    · rw [if_pos hguard]
    · rw [if_neg hguard]
      by_cases hz : ¬isZeroG (jget args "-C")
      · rw [if_pos hz, jget_sjsonDelete_ne _ _ _ hkb, jget_sjsonDelete_ne _ _ _ hka]
      · rw [if_neg hz, jget_sjsonDelete_ne _ _ _ hkc]

/-- C4 witness: the spec's own example — grep args with `-C:3, -A:2, -B:0` —
drops `-A` and `-B`, keeping pattern and `-C`. -/
theorem sanitizeCodexGrepArgs_spec_witness :
    sanitizeCodexGrepArgs "grep"
        (JVal.obj [("pattern", JVal.str "x"), ("-C", JVal.num 3),
          ("-A", JVal.num 2), ("-B", JVal.num 0)]) =
      JVal.obj [("pattern", JVal.str "x"), ("-C", JVal.num 3)] := by
  have h := (sanitizeCodexGrepArgs_spec "grep"
    (JVal.obj [("pattern", JVal.str "x"), ("-C", JVal.num 3),
      ("-A", JVal.num 2), ("-B", JVal.num 0)]) (Or.inl rfl)).2.1 rfl (Or.inl rfl)
  rw [h]
  rfl

/-! ## Schema-driven argument type fixing (source: `FixToolCallArgs` /
`fixSingleArg` in `util_gemini.go`)

Go `any` values decoded from JSON (`nil`, `bool`, `float64`, `string`,
`[]any`, `map[string]any`) are modelled by `GoVal` with rational numbers
standing for `float64` (every conversion the claims touch is exact). -/

inductive GoVal where
  | null
  | bool (b : Bool)
  | num (q : Rat)
  | str (s : String)
  | arr (xs : List GoVal)
  | obj (fields : List (String × GoVal))
deriving Repr

/-- First binding of a key in a decoded Go map (keys are unique after JSON
decoding, so first-match lookup is the map lookup). -/
def lookupGo : List (String × GoVal) → String → Option GoVal
  | [], _ => none
  | (k, v) :: rest, key => if k = key then some v else lookupGo rest key

/-- ASCII lowering of one character (the strings compared are ASCII). -/
def lowerChar (c : Char) : Char :=
  if 'a' ≤ c ∧ c ≤ 'z' then c else
  if 'A' ≤ c ∧ c ≤ 'Z' then Char.ofNat (c.toNat + 32) else c

/-- ASCII model of Go `strings.ToLower`. -/
def toLowerGo (s : String) : String := String.mk (s.data.map lowerChar)

/-- `schema["type"].(string)`, `""` when absent or not a string. -/
def typeOf (schema : List (String × GoVal)) : String :=
  match lookupGo schema "type" with
  | some (.str t) => t
  | _ => ""

/-- Go `strings.HasPrefix s pre`. -/
def strHasPrefix (s pre : String) : Bool := List.isPrefixOf pre.data s.data

/-- Go byte length of a string value. -/
def goLenStr (s : String) : Nat := goLen s.data

/-- All-digits value of a character run (empty runs read as 0; used only under
an all-digits check). -/
def digitsVal (ds : List Char) : Option Nat :=
  if ds.all (fun c => '0' ≤ c ∧ c ≤ '9') then
    some (ds.foldl (fun acc c => acc * 10 + (c.toNat - 48)) 0)
  else none

/-- Unsigned decimal accepted by `strconv.ParseInt`/`ParseFloat` on the plain
forms `ddd`, `ddd.ddd`, `ddd.`, `.ddd` (exponent and hexadecimal float syntax
is beyond the claims verified here and reads as a parse failure). -/
def parseUnsignedDec (ds : List Char) : Option Rat :=
  match ds.dropWhile (fun c => !(c = '.' : Bool)) with
  | [] => if ds = [] then none else (digitsVal ds).map (fun n => (n : Rat))
  | _ :: frac =>
    if ds.takeWhile (fun c => !(c = '.' : Bool)) = [] ∧ frac = [] then none
    else
      match digitsVal (ds.takeWhile (fun c => !(c = '.' : Bool))), digitsVal frac with
      | some a, some b => some ((a : Rat) + (b : Rat) / ((10 : Rat) ^ frac.length))
      | _, _ => none

/-- Signed decimal: the `ParseInt`-then-`ParseFloat` cascade of the number
branch (both agree on integral input). -/
def parseDecGo (s : String) : Option Rat :=
  match s.data with
  | '-' :: ds => (parseUnsignedDec ds).map (fun q => -q)
  | ds => parseUnsignedDec ds

/-- `fmt.Sprintf("%v", val)` for the string-coercion branch, modelled as a
simple rendering (the claims never depend on its exact text, only on the fact
that a non-string becomes some string). -/
def goSprintf : GoVal → String
  | .null => "<nil>"
  | .bool true => "true"
  | .bool false => "false"
  | .num q => toString q
  | .str s => s
  | .arr xs => "[" ++ joinComma (xs.attach.map (fun x => goSprintf x.1)) ++ "]"
  | .obj fs =>
    "map[" ++ joinComma (fs.attach.map (fun p => p.1.1 ++ ":" ++ goSprintf p.1.2)) ++ "]"
termination_by v => sizeOf v
decreasing_by
  · have hm := List.sizeOf_lt_of_mem x.2
    simp only [GoVal.arr.sizeOf_spec]
    omega
  · obtain ⟨⟨k, w⟩, hp⟩ := p
    have hm := List.sizeOf_lt_of_mem hp
    simp only [Prod.mk.sizeOf_spec] at hm
    simp only [GoVal.obj.sizeOf_spec]
    omega

/-- The primitive-coercion switch of `fixSingleArg` (cases `number|integer`,
`boolean`, `string` of the type switch; non-recursive). -/
def fixPrimGo (val : GoVal) (schema : List (String × GoVal)) : GoVal :=
  if toLowerGo (typeOf schema) = "number" ∨ toLowerGo (typeOf schema) = "integer" then
    match val with
    | .str s =>
      if 1 < goLenStr s ∧ strHasPrefix s "0" ∧ ¬strHasPrefix s "0." then .str s
      else
        match parseDecGo s with
        | some q => .num q
        | none => .str s
    | v => v
  else if toLowerGo (typeOf schema) = "boolean" then
    match val with
    | .str s =>
      if toLowerGo s = "true" ∨ toLowerGo s = "1" ∨ toLowerGo s = "yes" ∨
          toLowerGo s = "on" then .bool true
      else if toLowerGo s = "false" ∨ toLowerGo s = "0" ∨ toLowerGo s = "no" ∨
          toLowerGo s = "off" then .bool false
      else .str s
    | .num q => if q = 1 then .bool true else if q = 0 then .bool false else .num q
    | v => v
  else if toLowerGo (typeOf schema) = "string" then
    match val with
    | .str s => .str s
    | .null => .null
    | v => .str (goSprintf v)
  else val

mutual

/-- `fixSingleArg`: recurse through schema `properties` for objects and
`items` for arrays, then coerce primitive string values per the declared type
(`fixPrimGo`); the number branch is guarded so strings of length > 1 starting
with `0` but not `0.` are never converted. -/
def fixSingleArg (val : GoVal) (schema : List (String × GoVal)) : GoVal :=
  match lookupGo schema "properties" with
  | some (.obj props) =>
    match val with
    | .obj fields => .obj (fixFields fields props)
    | _ => val
  | _ =>
    if toLowerGo (typeOf schema) = "array" then
      match lookupGo schema "items" with
      | some (.obj items) =>
        match val with
        | .arr xs => .arr (fixArr xs items)
        | _ => val
      | _ => val
    else fixPrimGo val schema
termination_by sizeOf val
decreasing_by
  all_goals
    simp only [GoVal.obj.sizeOf_spec, GoVal.arr.sizeOf_spec, Prod.mk.sizeOf_spec,
      List.cons.sizeOf_spec]
    omega

/-- The per-key update loop shared by `FixToolCallArgs` and the nested-object
branch of `fixSingleArg` (`if updated != nil { m[k] = updated }`). -/
def fixFields (fields props : List (String × GoVal)) : List (String × GoVal) :=
  match fields with
  | [] => []
  | (k, v) :: rest =>
    (k,
      match lookupGo props k with
      | some (.obj ps) =>
        match fixSingleArg v ps with
        | .null => v
        | u => u
      | _ => v) :: fixFields rest props
termination_by sizeOf fields
decreasing_by
  all_goals
    simp only [GoVal.obj.sizeOf_spec, GoVal.arr.sizeOf_spec, Prod.mk.sizeOf_spec,
      List.cons.sizeOf_spec]
    omega

/-- The element loop of the array branch. -/
def fixArr (xs : List GoVal) (items : List (String × GoVal)) : List GoVal :=
  match xs with
  | [] => []
  | x :: rest => fixSingleArg x items :: fixArr rest items
termination_by sizeOf xs
decreasing_by
  all_goals
    simp only [GoVal.obj.sizeOf_spec, GoVal.arr.sizeOf_spec, Prod.mk.sizeOf_spec,
      List.cons.sizeOf_spec]
    omega

end

/-- `FixToolCallArgs`: walk `args` against `schema.properties` (no-op when the
schema has no object-valued `properties`). -/
def FixToolCallArgs (args schema : List (String × GoVal)) : List (String × GoVal) :=
  match lookupGo schema "properties" with
  | some (.obj props) => fixFields args props
  | _ => args

/-- The protection guard of the number branch, as a predicate: byte length
above 1, leading `0`, not a `0.` decimal. -/
def ProtectedStr (s : String) : Prop :=
  1 < goLenStr s ∧ strHasPrefix s "0" ∧ ¬strHasPrefix s "0."

instance (s : String) : Decidable (ProtectedStr s) := by
  unfold ProtectedStr
  infer_instance

theorem protectedStr_shape (s : String) (hp : ProtectedStr s) :
    ∃ rest, s.data = '0' :: rest ∧ rest ≠ [] := by
  obtain ⟨hlen, hpre, _⟩ := hp
  rw [strHasPrefix, List.isPrefixOf_iff_prefix] at hpre
  obtain ⟨t, ht⟩ := hpre
  have hdata : s.data = '0' :: t := by
    rw [← ht]
    rfl
  refine ⟨t, hdata, ?_⟩
  intro hnil
  subst hnil
  rw [goLenStr, hdata] at hlen
  simp [goLen, utf8CharLen] at hlen

theorem toLowerGo_protected_ne (s w : String) (rest : List Char)
    (hdata : s.data = '0' :: rest) (hrest : rest ≠ [])
    (hw : w.data.head? ≠ some '0' ∨ w.data.length = 1) :
    toLowerGo s ≠ w := by
  intro h
  have hd : (s.data.map lowerChar) = w.data := congrArg String.data h
  rw [hdata] at hd
  simp only [List.map_cons] at hd
  have hl0 : lowerChar '0' = '0' := by decide
  rw [hl0] at hd
  rcases hw with hw | hw
  · apply hw
    rw [← hd]
    rfl
  · rw [← hd] at hw
    simp only [List.length_cons, List.length_map] at hw
    have hz : rest.length = 0 := by omega
    exact hrest (List.length_eq_zero.mp hz)

theorem fixPrimGo_protected (s : String) (sch : List (String × GoVal))
    (hp : ProtectedStr s) :
    fixPrimGo (GoVal.str s) sch = GoVal.str s := by
  obtain ⟨rest, hdata, hrest⟩ := protectedStr_shape s hp
  unfold fixPrimGo
  split_ifs with hnum hbool hstr
  · show (if 1 < goLenStr s ∧ strHasPrefix s "0" ∧ ¬strHasPrefix s "0." then GoVal.str s
      else
        match parseDecGo s with
        | some q => GoVal.num q
        | none => GoVal.str s) = GoVal.str s
    exact if_pos hp
  · have h1 : toLowerGo s ≠ "true" :=
      toLowerGo_protected_ne s "true" rest hdata hrest (Or.inl (by decide))
    have h2 : toLowerGo s ≠ "1" :=
      toLowerGo_protected_ne s "1" rest hdata hrest (Or.inl (by decide))
    have h3 : toLowerGo s ≠ "yes" :=
      toLowerGo_protected_ne s "yes" rest hdata hrest (Or.inl (by decide))
    have h4 : toLowerGo s ≠ "on" :=
      toLowerGo_protected_ne s "on" rest hdata hrest (Or.inl (by decide))
    have h5 : toLowerGo s ≠ "false" :=
      toLowerGo_protected_ne s "false" rest hdata hrest (Or.inl (by decide))
    have h6 : toLowerGo s ≠ "0" :=
      toLowerGo_protected_ne s "0" rest hdata hrest (Or.inr (by decide))
    have h7 : toLowerGo s ≠ "no" :=
      toLowerGo_protected_ne s "no" rest hdata hrest (Or.inl (by decide))
    have h8 : toLowerGo s ≠ "off" :=
      toLowerGo_protected_ne s "off" rest hdata hrest (Or.inl (by decide))
    show (if toLowerGo s = "true" ∨ toLowerGo s = "1" ∨ toLowerGo s = "yes" ∨
          toLowerGo s = "on" then GoVal.bool true
        else if toLowerGo s = "false" ∨ toLowerGo s = "0" ∨ toLowerGo s = "no" ∨
          toLowerGo s = "off" then GoVal.bool false
        else GoVal.str s) = GoVal.str s
    rw [if_neg (by rintro (h | h | h | h)
                   exacts [h1 h, h2 h, h3 h, h4 h]),
      if_neg (by rintro (h | h | h | h)
                 exacts [h5 h, h6 h, h7 h, h8 h])]
  · rfl
  · rfl

theorem fixSingleArg_protected (s : String) (sch : List (String × GoVal))
    (hp : ProtectedStr s) :
    fixSingleArg (GoVal.str s) sch = GoVal.str s := by
  rw [fixSingleArg.eq_def]
  split
  · rfl
  · split_ifs with harr
    · split
      · rfl
      · rfl
    · exact fixPrimGo_protected s sch hp

/-- A step into a decoded argument value: an object member or an array index. -/
inductive PathStep where
  | key (k : String)
  | idx (i : Nat)
deriving Repr

/-- Follow a path through a decoded value. -/
def getAtPath : GoVal → List PathStep → Option GoVal
  | v, [] => some v
  | .obj fields, .key k :: rest =>
    match lookupGo fields k with
    | some w => getAtPath w rest
    | none => none
  | .arr xs, .idx i :: rest =>
    match xs.get? i with
    | some w => getAtPath w rest
    | none => none
  | _, _ => none

/-- Follow a path through a schema exactly the way `fixSingleArg` recurses:
members through object-valued `properties`, indices through an object-valued
`items` of an `array`-typed schema (only when `properties` does not direct the
object branch). -/
def schemaAtPath : List (String × GoVal) → List PathStep → Option (List (String × GoVal))
  | sch, [] => some sch
  | sch, .key k :: rest =>
    match lookupGo sch "properties" with
    | some (.obj props) =>
      match lookupGo props k with
      | some (.obj ps) => schemaAtPath ps rest
      | _ => none
    | _ => none
  | sch, .idx _ :: rest =>
    match lookupGo sch "properties" with
    | some (.obj _) => none
    | _ =>
      if toLowerGo (typeOf sch) = "array" then
        match lookupGo sch "items" with
        | some (.obj items) => schemaAtPath items rest
        | _ => none
      else none

theorem fixFields_nil (props : List (String × GoVal)) : fixFields [] props = [] := by
  rw [fixFields.eq_def]

theorem fixFields_cons (pk : String) (pv : GoVal) (rest props : List (String × GoVal)) :
    fixFields ((pk, pv) :: rest) props =
      (pk,
        match lookupGo props pk with
        | some (.obj ps) =>
          match fixSingleArg pv ps with
          | .null => pv
          | u => u
        | _ => pv) :: fixFields rest props := by
  rw [fixFields.eq_def]

theorem fixArr_nil (items : List (String × GoVal)) : fixArr [] items = [] := by
  rw [fixArr.eq_def]

theorem fixArr_cons (x : GoVal) (rest : List GoVal) (items : List (String × GoVal)) :
    fixArr (x :: rest) items = fixSingleArg x items :: fixArr rest items := by
  rw [fixArr.eq_def]

theorem lookupGo_fixFields (fields props : List (String × GoVal)) (k : String) :
    lookupGo (fixFields fields props) k =
      (lookupGo fields k).map (fun v =>
        match lookupGo props k with
        | some (.obj ps) =>
          match fixSingleArg v ps with
          | .null => v
          | u => u
        | _ => v) := by
  induction fields with
  | nil => rw [fixFields_nil]; rfl
  | cons p rest ih =>
    obtain ⟨pk, pv⟩ := p
    rw [fixFields_cons]
    simp only [lookupGo]
    by_cases hpk : pk = k
    · subst hpk
      rw [if_pos rfl, if_pos rfl]
      rfl
    · rw [if_neg hpk, if_neg hpk]
      exact ih

theorem fixArr_get (xs : List GoVal) (items : List (String × GoVal)) (i : Nat) :
    (fixArr xs items).get? i = (xs.get? i).map (fun x => fixSingleArg x items) := by
  induction xs generalizing i with
  | nil => rw [fixArr_nil]; rfl
  | cons x rest ih =>
    rw [fixArr_cons]
    cases i with
    | zero => rfl
    | succ n =>
      simp only [List.get?]
      exact ih n

theorem fixSingleArg_obj_props (fields sch props : List (String × GoVal))
    (hpr : lookupGo sch "properties" = some (.obj props)) :
    fixSingleArg (.obj fields) sch = .obj (fixFields fields props) := by
  rw [fixSingleArg.eq_def, hpr]

theorem fixSingleArg_path_protected (path : List PathStep) :
    ∀ (val : GoVal) (sch : List (String × GoVal)) (s : String),
      ProtectedStr s → schemaAtPath sch path ≠ none →
      getAtPath val path = some (GoVal.str s) →
      getAtPath (fixSingleArg val sch) path = some (GoVal.str s) := by
  induction path with
  | nil =>
    intro val sch s hp _ hv
    simp only [getAtPath, Option.some.injEq] at hv
    subst hv
    simp only [getAtPath, Option.some.injEq]
    exact fixSingleArg_protected s sch hp
  | cons step rest ih =>
    intro val sch s hp hsch hv
    cases step with
    | key k =>
      rcases hpr : lookupGo sch "properties" with _ | w
      · rw [schemaAtPath, hpr] at hsch
        simp at hsch
      · cases w with
        | obj props =>
          rw [schemaAtPath, hpr] at hsch
          dsimp only [] at hsch
          rcases hpk : lookupGo props k with _ | w2
          · rw [hpk] at hsch
            simp at hsch
          · cases w2 with
            | obj ps =>
              rw [hpk] at hsch
              dsimp only [] at hsch
              cases val with
              | obj fields =>
                rw [getAtPath] at hv
                rcases hfk : lookupGo fields k with _ | w3
                · rw [hfk] at hv
                  simp at hv
                · rw [hfk] at hv
                  simp only at hv
                  rw [fixSingleArg_obj_props fields sch props hpr, getAtPath,
                    lookupGo_fixFields, hfk, Option.map_some', hpk]
                  have hres := ih w3 ps s hp hsch hv
                  dsimp only []
                  generalize hfix : fixSingleArg w3 ps = u at hres ⊢
                  cases u with
                  | null => exact hv
                  | bool b => exact hres
                  | num q => exact hres
                  | str t => exact hres
                  | arr xs => exact hres
                  | obj fs => exact hres
              | null => simp [getAtPath] at hv
              | bool b => simp [getAtPath] at hv
              | num q => simp [getAtPath] at hv
              | str t => simp [getAtPath] at hv
              | arr xs => simp [getAtPath] at hv
            | null => rw [hpk] at hsch; simp at hsch
            | bool b => rw [hpk] at hsch; simp at hsch
            | num q => rw [hpk] at hsch; simp at hsch
            | str t => rw [hpk] at hsch; simp at hsch
            | arr xs => rw [hpk] at hsch; simp at hsch
        | null => rw [schemaAtPath, hpr] at hsch; simp at hsch
        | bool b => rw [schemaAtPath, hpr] at hsch; simp at hsch
        | num q => rw [schemaAtPath, hpr] at hsch; simp at hsch
        | str t => rw [schemaAtPath, hpr] at hsch; simp at hsch
        | arr xs => rw [schemaAtPath, hpr] at hsch; simp at hsch
    | idx i =>
      have hnotobj : ∀ props, lookupGo sch "properties" ≠ some (.obj props) := by
        intro props hcon
        rw [schemaAtPath, hcon] at hsch
        simp at hsch
      have hstep : schemaAtPath sch (.idx i :: rest) =
          (if toLowerGo (typeOf sch) = "array" then
            match lookupGo sch "items" with
            | some (.obj items) => schemaAtPath items rest
            | _ => none
          else none) := by
        rw [schemaAtPath]
        rcases hpr : lookupGo sch "properties" with _ | w
        · rfl
        · cases w with
          | obj props => exact absurd hpr (hnotobj props)
          | null => rfl
          | bool b => rfl
          | num q => rfl
          | str t => rfl
          | arr xs => rfl
      rw [hstep] at hsch
      by_cases harr : toLowerGo (typeOf sch) = "array"
      · rw [if_pos harr] at hsch
        rcases hit : lookupGo sch "items" with _ | w
        · rw [hit] at hsch
          simp at hsch
        · cases w with
          | obj items =>
            rw [hit] at hsch
            dsimp only [] at hsch
            cases val with
            | arr xs =>
              rw [getAtPath] at hv
              rcases hgi : xs.get? i with _ | w3
              · rw [hgi] at hv
                simp at hv
              · rw [hgi] at hv
                simp only at hv
                have harrfix : fixSingleArg (.arr xs) sch = .arr (fixArr xs items) := by
                  rw [fixSingleArg.eq_def]
                  rcases hpr : lookupGo sch "properties" with _ | w4
                  · simp only [if_pos harr, hit]
                  · cases w4 with
                    | obj props => exact absurd hpr (hnotobj props)
                    | null => simp only [if_pos harr, hit]
                    | bool b => simp only [if_pos harr, hit]
                    | num q => simp only [if_pos harr, hit]
                    | str t => simp only [if_pos harr, hit]
                    | arr ys => simp only [if_pos harr, hit]
                rw [harrfix, getAtPath, fixArr_get, hgi, Option.map_some']
                exact ih w3 items s hp hsch hv
            | null => simp [getAtPath] at hv
            | bool b => simp [getAtPath] at hv
            | num q => simp [getAtPath] at hv
            | str t => simp [getAtPath] at hv
            | obj fs => simp [getAtPath] at hv
          | null => rw [hit] at hsch; simp at hsch
          | bool b => rw [hit] at hsch; simp at hsch
          | num q => rw [hit] at hsch; simp at hsch
          | str t => rw [hit] at hsch; simp at hsch
          | arr ys => rw [hit] at hsch; simp at hsch
      · rw [if_neg harr] at hsch
        simp at hsch

theorem fixToolCallArgs_path_protected (args sch : List (String × GoVal)) (k : String)
    (path : List PathStep) (s : String) (hp : ProtectedStr s)
    (hsch : schemaAtPath sch (.key k :: path) ≠ none)
    (hv : getAtPath (.obj args) (.key k :: path) = some (GoVal.str s)) :
    getAtPath (.obj (FixToolCallArgs args sch)) (.key k :: path) = some (GoVal.str s) := by
  have h1 := fixSingleArg_path_protected (.key k :: path) (.obj args) sch s hp hsch hv
  rcases hpr : lookupGo sch "properties" with _ | w
  · rw [schemaAtPath, hpr] at hsch
    simp at hsch
  · cases w with
    | obj props =>
      rw [fixSingleArg_obj_props args sch props hpr] at h1
      unfold FixToolCallArgs
      rw [hpr]
      exact h1
    | null => rw [schemaAtPath, hpr] at hsch; simp at hsch
    | bool b => rw [schemaAtPath, hpr] at hsch; simp at hsch
    | num q => rw [schemaAtPath, hpr] at hsch; simp at hsch
    | str t => rw [schemaAtPath, hpr] at hsch; simp at hsch
    | arr xs => rw [schemaAtPath, hpr] at hsch; simp at hsch

/-- C7: neither `fixSingleArg` nor `FixToolCallArgs` ever converts a string
that begins with `0` and is neither `"0"` nor of the form `"0.x"`
(byte length > 1, leading `0`, no `0.`): at every nesting depth the schema can
reach — through object `properties` and array `items` alike — such a string
survives unchanged, whatever type the schema declares there (number and
integer included). -/
theorem fixToolCallArgs_leading_zero_protection :
    (∀ (path : List PathStep) (val : GoVal) (sch : List (String × GoVal)) (s : String),
      ProtectedStr s → schemaAtPath sch path ≠ none →
      getAtPath val path = some (GoVal.str s) →
      getAtPath (fixSingleArg val sch) path = some (GoVal.str s)) ∧
    (∀ (args sch : List (String × GoVal)) (k : String) (path : List PathStep) (s : String),
      ProtectedStr s → schemaAtPath sch (.key k :: path) ≠ none →
      getAtPath (.obj args) (.key k :: path) = some (GoVal.str s) →
      getAtPath (.obj (FixToolCallArgs args sch)) (.key k :: path) = some (GoVal.str s)) :=
  ⟨fun path => fixSingleArg_path_protected path, fixToolCallArgs_path_protected⟩

/-- C7 witness: the spec's example — args `version:"01.0", code:"007"` against
schema types number/integer — keeps both strings unchanged. -/
theorem fixToolCallArgs_leading_zero_protection_witness :
    getAtPath
        (.obj (FixToolCallArgs
          [("version", GoVal.str "01.0"), ("code", GoVal.str "007")]
          [("properties", GoVal.obj
            [("version", GoVal.obj [("type", GoVal.str "number")]),
             ("code", GoVal.obj [("type", GoVal.str "integer")])])]))
        [PathStep.key "version"] = some (GoVal.str "01.0") ∧
    getAtPath
        (.obj (FixToolCallArgs
          [("version", GoVal.str "01.0"), ("code", GoVal.str "007")]
          [("properties", GoVal.obj
            [("version", GoVal.obj [("type", GoVal.str "number")]),
             ("code", GoVal.obj [("type", GoVal.str "integer")])])]))
        [PathStep.key "code"] = some (GoVal.str "007") := by
  constructor
  · exact fixToolCallArgs_leading_zero_protection.2
      [("version", GoVal.str "01.0"), ("code", GoVal.str "007")]
      [("properties", GoVal.obj
        [("version", GoVal.obj [("type", GoVal.str "number")]),
         ("code", GoVal.obj [("type", GoVal.str "integer")])])]
      "version" [] "01.0" (by decide)
      (by rw [show schemaAtPath
          [("properties", GoVal.obj
            [("version", GoVal.obj [("type", GoVal.str "number")]),
             ("code", GoVal.obj [("type", GoVal.str "integer")])])]
          [PathStep.key "version"] = some [("type", GoVal.str "number")] from rfl]
          simp)
      rfl
  · exact fixToolCallArgs_leading_zero_protection.2
      [("version", GoVal.str "01.0"), ("code", GoVal.str "007")]
      [("properties", GoVal.obj
        [("version", GoVal.obj [("type", GoVal.str "number")]),
         ("code", GoVal.obj [("type", GoVal.str "integer")])])]
      "code" [] "007" (by decide)
      (by rw [show schemaAtPath
          [("properties", GoVal.obj
            [("version", GoVal.obj [("type", GoVal.str "number")]),
             ("code", GoVal.obj [("type", GoVal.str "integer")])])]
          [PathStep.key "code"] = some [("type", GoVal.str "integer")] from rfl]
          simp)
      rfl

/-! ## Unified streaming state machine, OpenAI/Cline target
(source: `convertUnifiedEventsToChunks` and `ToOpenAIChunkMeta`)

The machine is modelled at the event level: each IR event yields at most one
OpenAI chunk, abstracted to the fields the claims speak about (`finish_reason`,
`tool_calls[0].index/id/name/arguments`).  State threads across calls, so one
run over a concatenated event list models a whole stream. -/

inductive MEventType where
  | token
  | reasoning
  | reasoningSummary
  | toolCall
  | toolCallDelta
  | image
  | finish
  | error
deriving Repr, DecidableEq

/-- The `ir.ToolCall` fields the machine reads or mutates. -/
structure MToolCall where
  id : String := ""
  name : String := ""
  itemID : String := ""
  args : String := ""
deriving Repr, DecidableEq

/-- The `ir.Usage` fields the machine touches. -/
structure MUsage where
  promptTokens : Int := 0
  completionTokens : Int := 0
  totalTokens : Int := 0
  thoughtsTokenCount : Nat := 0
deriving Repr, DecidableEq

/-- The `ir.UnifiedEvent` fields the machine reads. -/
structure MEvent where
  type : MEventType
  content : String := ""
  reasoning : String := ""
  toolCall : Option MToolCall := none
  image : Bool := false
  toolCallIndex : Int := 0
  finishReason : Option FinishReason := none
  usage : Option MUsage := none
deriving Repr, DecidableEq

/-- `UnifiedStreamState` (OpenAI/Cline fields).  Maps are association lists,
`toolCallSentHeader` is the set of indices marked true. -/
structure MState where
  hasContent : Bool := false
  reasoningCharsAccum : Nat := 0
  toolCallSentHeader : List Int := []
  toolCallIndex : Nat := 0
  finishSent : Bool := false
  toolCallIDMap : List (String × String) := []
  outputIndexMap : List (Int × Nat) := []
deriving Repr, DecidableEq

def alookupStr : List (String × String) → String → Option String
  | [], _ => none
  | (k, v) :: rest, key => if k = key then some v else alookupStr rest key

def mapAssignStr (m : List (String × String)) (k v : String) : List (String × String) :=
  (k, v) :: List.filter (fun p => !(p.1 = k : Bool)) m

def alookupIdx : List (Int × Nat) → Int → Option Nat
  | [], _ => none
  | (k, v) :: rest, key => if k = key then some v else alookupIdx rest key

/-- `MapFinishReasonToOpenAI`; the Go zero value `""` hits the default
branch. -/
def MapFinishReasonToOpenAI (r : Option FinishReason) : String :=
  match r with
  | some .length => "length"
  | some .toolCalls => "tool_calls"
  | some .contentFilter => "content_filter"
  | _ => "stop"

/-- One `tool_calls[0]` element of an emitted chunk; `id`/`name` are present
exactly when the (possibly blanked) event fields are non-empty.  NOTE: the
source's `buildToolCallDelta` sets `index` from `event.ToolCallIndex` — the
`chunkIndex` parameter of `ToOpenAIChunkMeta` is never read. -/
structure OAToolCallChunk where
  index : Int
  id : Option String
  name : Option String
  args : String
deriving Repr, DecidableEq

/-- An emitted `chat.completion.chunk`, abstracted to the claim-relevant
fields. -/
inductive OAChunk where
  | token (content : Option String)
  | reasoning (text : String)
  | toolCallDelta (tc : OAToolCallChunk)
  | image
  | emptyDelta
  | finish (reason : String) (usage : Option MUsage)
deriving Repr, DecidableEq

/-- `buildToolCallDelta`: index from `event.ToolCallIndex`. -/
def buildToolCallDelta (e : MEvent) (tc : MToolCall) : OAToolCallChunk :=
  { index := e.toolCallIndex,
    id := if tc.id ≠ "" then some tc.id else none,
    name := if tc.name ≠ "" then some tc.name else none,
    args := tc.args }

/-- `ToOpenAIChunkMeta` (observable part): `chunkIndex` is accepted and —
exactly as in the source — never used; unknown event types produce no chunk;
`Error` events are errors. -/
def toOpenAIChunk (e : MEvent) (chunkIndex : Int) : Except Unit (Option OAChunk) :=
  match e.type with
  | .token => .ok (some (.token (if e.content ≠ "" then some e.content else none)))
  | .reasoning => .ok (some (.reasoning e.reasoning))
  | .toolCall =>
    match e.toolCall with
    | some tc => .ok (some (.toolCallDelta (buildToolCallDelta e tc)))
    | none => .ok (some .emptyDelta)
  | .toolCallDelta =>
    match e.toolCall with
    | some tc => .ok (some (.toolCallDelta (buildToolCallDelta e tc)))
    | none => .ok (some .emptyDelta)
  | .image => .ok (some (if e.image then .image else .emptyDelta))
  | .finish => .ok (some (.finish (MapFinishReasonToOpenAI e.finishReason) e.usage))
  | .error => .error ()
  | .reasoningSummary => .ok none

/-- Step 1 of the loop: record that visible content was observed. -/
def trackContent (st : MState) (ev : MEvent) : MState :=
  if ev.content ≠ "" ∨ ev.reasoning ≠ "" ∨ ev.toolCall.isSome then
    { st with hasContent := true }
  else st

/-- Step 2: accumulate reasoning characters (Go byte length). -/
def trackReasoning (st : MState) (ev : MEvent) : MState :=
  if ev.type = MEventType.reasoning ∧ ev.reasoning ≠ "" then
    { st with reasoningCharsAccum := st.reasoningCharsAccum + goLenStr ev.reasoning }
  else st

/-- Step 3: reconcile Responses-API `item_id` with the client `call_id`. -/
def reconcileIDs (st : MState) (ev : MEvent) : MState × MEvent :=
  match ev.toolCall with
  | some tc =>
    if ev.type = MEventType.toolCall ∧ tc.itemID ≠ "" ∧ tc.id ≠ "" then
      ({ st with toolCallIDMap := mapAssignStr st.toolCallIDMap tc.itemID tc.id }, ev)
    else if tc.itemID ≠ "" ∧ tc.id = "" then
      match alookupStr st.toolCallIDMap tc.itemID with
      | some callID => (st, { ev with toolCall := some { tc with id := callID } })
      | none => (st, ev)
    else (st, ev)
  | none => (st, ev)

/-- Step 4: linearise the upstream output index; returns the effective index
(which the source then passes to `ToOpenAIChunk` — where it is ignored). -/
def linearizeIndex (st : MState) (ev : MEvent) : MState × Int :=
  if ev.type = MEventType.toolCall ∨ ev.type = MEventType.toolCallDelta then
    match alookupIdx st.outputIndexMap ev.toolCallIndex with
    | some mapped => (st, (mapped : Int))
    | none =>
      if ev.type = MEventType.toolCall then
        ({ st with
            outputIndexMap := (ev.toolCallIndex, st.toolCallIndex) :: st.outputIndexMap,
            toolCallIndex := st.toolCallIndex + 1 },
          (st.toolCallIndex : Int))
      else (st, ev.toolCallIndex)
  else (st, ev.toolCallIndex)

/-- Step 5 (after the duplicate/empty gates): mark the finish sent, rewrite
`Stop` to `ToolCalls` when tool calls occurred, synthesize reasoning usage. -/
def handleFinish (st : MState) (ev : MEvent) : MState × MEvent :=
  if ev.type = MEventType.finish then
    let stf := { st with finishSent := true }
    let evf :=
      if 0 < stf.toolCallIndex ∧ ev.finishReason = some FinishReason.stop then
        { ev with finishReason := some FinishReason.toolCalls }
      else ev
    let base := evf.usage.getD ({} : MUsage)
    let synth := { base with thoughtsTokenCount := (stf.reasoningCharsAccum + 2) / 3 }
    let evf2 :=
      if 0 < stf.reasoningCharsAccum then
        if base.thoughtsTokenCount = 0 then { evf with usage := some synth }
        else { evf with usage := some base }
      else evf
    (stf, evf2)
  else (st, ev)

/-- Step 6: blank `id`/`name` on delta events and on repeated tool-call
headers (keyed by the effective index). -/
def cleanupHeaders (st : MState) (ev : MEvent) (effectiveIdx : Int) : MState × MEvent :=
  if ev.type = MEventType.toolCallDelta then
    (st, { ev with toolCall := ev.toolCall.map (fun tc => { tc with id := "", name := "" }) })
  else if ev.type = MEventType.toolCall then
    if effectiveIdx ∈ st.toolCallSentHeader then
      (st, { ev with toolCall := ev.toolCall.map (fun tc => { tc with id := "", name := "" }) })
    else ({ st with toolCallSentHeader := effectiveIdx :: st.toolCallSentHeader }, ev)
  else (st, ev)

/-- One iteration of the `"openai", "cline"` loop of
`convertUnifiedEventsToChunks`, in source order: content tracking, reasoning
accumulation, item-id reconciliation, index linearisation, the duplicate- and
empty-finish gates (`continue`), finish handling, header blanking, emission. -/
def stepOpenAI (st0 : MState) (ev0 : MEvent) : Except Unit (MState × List OAChunk) :=
  let st2 := trackReasoning (trackContent st0 ev0) ev0
  let p3 := reconcileIDs st2 ev0
  let p4 := linearizeIndex p3.1 p3.2
  if p3.2.type = MEventType.finish ∧ p4.1.finishSent then .ok (p4.1, [])
  else if p3.2.type = MEventType.finish ∧ ¬p4.1.hasContent then .ok (p4.1, [])
  else
    let p5 := handleFinish p4.1 p3.2
    let p6 := cleanupHeaders p5.1 p5.2 p4.2
    match toOpenAIChunk p6.2 p4.2 with
    | .error e => .error e
    | .ok none => .ok (p6.1, [])
    | .ok (some ch) => .ok (p6.1, [ch])

/-- The whole `"openai"/"cline"` loop: fold `stepOpenAI` over the events; an
error aborts and discards the chunks, as in the source. -/
def runOpenAI (st : MState) : List MEvent → Except Unit (MState × List OAChunk)
  | [] => .ok (st, [])
  | ev :: rest =>
    match stepOpenAI st ev with
    | .error e => .error e
    | .ok (st', chs) =>
      match runOpenAI st' rest with
      | .error e => .error e
      | .ok (st'', more) => .ok (st'', chs ++ more)

/-- Whether an event counts as content for `HasContent` (the step-1 condition:
non-empty text, non-empty reasoning, or a tool call). -/
def isContentEvent (e : MEvent) : Bool :=
  !(e.content = "" : Bool) || !(e.reasoning = "" : Bool) || e.toolCall.isSome

/-- Whether a chunk is a finish chunk (carries `finish_reason`). -/
def isFinishChunk : OAChunk → Bool
  | .finish _ _ => true
  | _ => false

/-- Streams as the parsers emit them: no `Error` events, `Finish` events carry
no content fields (every parser builds them bare), and tool-call-delta events
carry a tool call (the source dereferences it unconditionally). -/
def WellFormedStream (evs : List MEvent) : Prop :=
  ∀ e ∈ evs, e.type ≠ .error ∧
    (e.type = .finish → e.content = "" ∧ e.reasoning = "" ∧ e.toolCall = none) ∧
    (e.type = .toolCallDelta → e.toolCall.isSome)

/-- A complete tool-call event at a given upstream output index. -/
def mkToolCallEventAt (i : Int) : MEvent :=
  { type := MEventType.toolCall, toolCallIndex := i,
    toolCall := some { id := "call_1", name := "f", itemID := "", args := "\x7b\x7d" } }

/-- C8 (code defect evidence): a single `ToolCall` event with upstream
`ToolCallIndex = 2` is assigned linear index 0 by the state machine
(`OutputIndexMap[2] = 0`, next linear index 1), yet the emitted chunk carries
`tool_calls[0].index = 2` — `ToOpenAIChunkMeta` ignores its `chunkIndex`
argument, so the linearised index never reaches the wire and the emitted
indices are not the contiguous `0,1,2,…` sequence the claim states. -/
theorem emittedToolCallIndex_not_linearized :
    ∃ st,
      runOpenAI {} [mkToolCallEventAt 2] =
        .ok (st, [OAChunk.toolCallDelta
          { index := 2, id := some "call_1", name := some "f", args := "\x7b\x7d" }]) ∧
      alookupIdx st.outputIndexMap 2 = some 0 ∧ st.toolCallIndex = 1 ∧ (2 : Int) ≠ 0 :=
  ⟨_, rfl, rfl, rfl, by decide⟩

/-- The usage attached to an emitted finish chunk: synthesize reasoning tokens
(`⌈chars/3⌉`) when reasoning was seen and the upstream count is zero. -/
def finishUsage (st : MState) (ev : MEvent) : Option MUsage :=
  if 0 < st.reasoningCharsAccum then
    if (ev.usage.getD ({} : MUsage)).thoughtsTokenCount = 0 then
      some { ev.usage.getD ({} : MUsage) with
              thoughtsTokenCount := (st.reasoningCharsAccum + 2) / 3 }
    else some (ev.usage.getD ({} : MUsage))
  else ev.usage

/-- The finish reason carried by the emitted event: `Stop` is rewritten to
`ToolCalls` when any tool call was linearised. -/
def finishWireReason (st : MState) (ev : MEvent) : Option FinishReason :=
  if 0 < st.toolCallIndex ∧ ev.finishReason = some FinishReason.stop then
    some FinishReason.toolCalls
  else ev.finishReason

/-- The finish reason on the wire. -/
def finishWire (st : MState) (ev : MEvent) : String :=
  MapFinishReasonToOpenAI (finishWireReason st ev)

theorem toOpenAIChunk_error (e : MEvent) (i : Int) (x : Unit)
    (h : toOpenAIChunk e i = .error x) : e.type = MEventType.error := by
  unfold toOpenAIChunk at h
  repeat' split at h
  all_goals simp_all

theorem toOpenAIChunk_not_finish (e : MEvent) (i : Int) (c : OAChunk)
    (he : e.type ≠ MEventType.finish) (h : toOpenAIChunk e i = .ok (some c)) :
    isFinishChunk c = false := by
  unfold toOpenAIChunk at h
  repeat' split at h
  all_goals simp_all [isFinishChunk, buildToolCallDelta]
  all_goals (subst h; rfl)

/-- The state invariant maintained by the machine: a non-empty output-index
map means a linear index was assigned. -/
def StMapInv (st : MState) : Prop := st.outputIndexMap ≠ [] → 0 < st.toolCallIndex

theorem alookupIdx_ne_nil (m : List (Int × Nat)) (k : Int) (v : Nat)
    (h : alookupIdx m k = some v) : m ≠ [] := by
  intro hm
  subst hm
  simp [alookupIdx] at h

theorem isContentEvent_iff (ev : MEvent) :
    isContentEvent ev = true ↔
      (ev.content ≠ "" ∨ ev.reasoning ≠ "" ∨ ev.toolCall.isSome) := by
  simp [isContentEvent]
  tauto

theorem trackContent_hasContent (st : MState) (ev : MEvent) :
    (trackContent st ev).hasContent = (st.hasContent || isContentEvent ev) := by
  unfold trackContent
  split
  · rename_i h
    have hic : isContentEvent ev = true := (isContentEvent_iff ev).mpr h
    simp [hic]
  · rename_i h
    have hic : isContentEvent ev = false := by
      rw [Bool.eq_false_iff]
      intro hcon
      exact h ((isContentEvent_iff ev).mp hcon)
    simp [hic]

theorem trackContent_finishSent (st : MState) (ev : MEvent) :
    (trackContent st ev).finishSent = st.finishSent := by
  unfold trackContent
  split <;> rfl

theorem trackContent_toolCallIndex (st : MState) (ev : MEvent) :
    (trackContent st ev).toolCallIndex = st.toolCallIndex := by
  unfold trackContent
  split <;> rfl

theorem trackContent_outputIndexMap (st : MState) (ev : MEvent) :
    (trackContent st ev).outputIndexMap = st.outputIndexMap := by
  unfold trackContent
  split <;> rfl

theorem trackReasoning_hasContent (st : MState) (ev : MEvent) :
    (trackReasoning st ev).hasContent = st.hasContent := by
  unfold trackReasoning
  split <;> rfl

theorem trackReasoning_finishSent (st : MState) (ev : MEvent) :
    (trackReasoning st ev).finishSent = st.finishSent := by
  unfold trackReasoning
  split <;> rfl

theorem trackReasoning_toolCallIndex (st : MState) (ev : MEvent) :
    (trackReasoning st ev).toolCallIndex = st.toolCallIndex := by
  unfold trackReasoning
  split <;> rfl

theorem trackReasoning_outputIndexMap (st : MState) (ev : MEvent) :
    (trackReasoning st ev).outputIndexMap = st.outputIndexMap := by
  unfold trackReasoning
  split <;> rfl

theorem reconcileIDs_state (st : MState) (ev : MEvent) :
    (reconcileIDs st ev).1.hasContent = st.hasContent ∧
    (reconcileIDs st ev).1.finishSent = st.finishSent ∧
    (reconcileIDs st ev).1.toolCallIndex = st.toolCallIndex ∧
    (reconcileIDs st ev).1.outputIndexMap = st.outputIndexMap := by
  unfold reconcileIDs
  repeat' split
  all_goals exact ⟨rfl, rfl, rfl, rfl⟩

theorem reconcileIDs_event (st : MState) (ev : MEvent) :
    (reconcileIDs st ev).2.type = ev.type ∧
    (reconcileIDs st ev).2.toolCallIndex = ev.toolCallIndex ∧
    (reconcileIDs st ev).2.finishReason = ev.finishReason := by
  unfold reconcileIDs
  repeat' split
  all_goals exact ⟨rfl, rfl, rfl⟩

theorem linearizeIndex_state (st : MState) (ev : MEvent) :
    (linearizeIndex st ev).1.hasContent = st.hasContent ∧
    (linearizeIndex st ev).1.finishSent = st.finishSent := by
  unfold linearizeIndex
  repeat' split
  all_goals exact ⟨rfl, rfl⟩

theorem linearizeIndex_index_iff (st : MState) (ev : MEvent) (hinv : StMapInv st) :
    (0 < (linearizeIndex st ev).1.toolCallIndex ↔
      (0 < st.toolCallIndex ∨ ev.type = MEventType.toolCall)) ∧
    StMapInv (linearizeIndex st ev).1 := by
  unfold linearizeIndex
  split
  · rename_i hty
    split
    · rename_i m heq
      have hpos := hinv (alookupIdx_ne_nil _ _ _ heq)
      exact ⟨⟨fun _ => Or.inl hpos, fun _ => hpos⟩, hinv⟩
    · split
      · rename_i heq hty2
        constructor
        · simp [hty2]
        · intro _
          simp
      · rename_i heq hty2
        refine ⟨⟨fun h => Or.inl h, ?_⟩, hinv⟩
        rintro (h | h)
        · exact h
        · exact absurd h hty2
  · rename_i hty
    push_neg at hty
    refine ⟨⟨fun h => Or.inl h, ?_⟩, hinv⟩
    rintro (h | h)
    · exact h
    · exact absurd h hty.1

theorem handleFinish_nonfinish (st : MState) (ev : MEvent)
    (ht : ev.type ≠ MEventType.finish) : handleFinish st ev = (st, ev) := by
  unfold handleFinish
  rw [if_neg ht]

theorem cleanupHeaders_state (st : MState) (ev : MEvent) (idx : Int) :
    (cleanupHeaders st ev idx).1.hasContent = st.hasContent ∧
    (cleanupHeaders st ev idx).1.finishSent = st.finishSent ∧
    (cleanupHeaders st ev idx).1.toolCallIndex = st.toolCallIndex ∧
    (cleanupHeaders st ev idx).1.outputIndexMap = st.outputIndexMap := by
  unfold cleanupHeaders
  repeat' split
  all_goals exact ⟨rfl, rfl, rfl, rfl⟩

theorem cleanupHeaders_event_type (st : MState) (ev : MEvent) (idx : Int) :
    (cleanupHeaders st ev idx).2.type = ev.type := by
  unfold cleanupHeaders
  repeat' split
  all_goals rfl

theorem handleFinish_finish (st : MState) (ev : MEvent)
    (ht : ev.type = MEventType.finish) :
    handleFinish st ev =
      ({ st with finishSent := true },
        { ev with finishReason := finishWireReason st ev,
                  usage := finishUsage st ev }) := by
  by_cases hrw : 0 < st.toolCallIndex ∧ ev.finishReason = some FinishReason.stop <;>
    by_cases hacc : 0 < st.reasoningCharsAccum <;>
      by_cases hb : (ev.usage.getD ({} : MUsage)).thoughtsTokenCount = 0 <;>
        simp [handleFinish, finishWireReason, finishUsage, ht, hrw, hacc, hb] <;>
          (try rw [← ht])

theorem cleanupHeaders_other (st : MState) (ev : MEvent) (idx : Int)
    (h1 : ev.type ≠ MEventType.toolCallDelta) (h2 : ev.type ≠ MEventType.toolCall) :
    cleanupHeaders st ev idx = (st, ev) := by
  unfold cleanupHeaders
  rw [if_neg h1, if_neg h2]

theorem toOpenAIChunk_finish (e : MEvent) (i : Int) (ht : e.type = MEventType.finish) :
    toOpenAIChunk e i =
      .ok (some (.finish (MapFinishReasonToOpenAI e.finishReason) e.usage)) := by
  unfold toOpenAIChunk
  rw [ht]

theorem stepOpenAI_finish (st : MState) (ev : MEvent)
    (ht : ev.type = MEventType.finish) (hc : ev.content = "")
    (hr : ev.reasoning = "") (htc : ev.toolCall = none) :
    stepOpenAI st ev =
      if st.finishSent then .ok (st, [])
      else if st.hasContent = false then .ok (st, [])
      else .ok ({ st with finishSent := true },
        [OAChunk.finish (finishWire st ev) (finishUsage st ev)]) := by
  have h1 : trackContent st ev = st := by
    unfold trackContent
    rw [if_neg]
    rintro (hne | hne | hsome)
    · exact hne hc
    · exact hne hr
    · rw [htc] at hsome
      simp at hsome
  have h2 : trackReasoning st ev = st := by
    unfold trackReasoning
    rw [if_neg]
    rintro ⟨_, hne⟩
    exact hne hr
  have h3 : reconcileIDs st ev = (st, ev) := by
    unfold reconcileIDs
    rw [htc]
  have h4 : linearizeIndex st ev = (st, ev.toolCallIndex) := by
    unfold linearizeIndex
    rw [if_neg]
    rintro (hty | hty) <;> rw [ht] at hty <;> simp at hty
  have h6 : cleanupHeaders { st with finishSent := true }
      ({ ev with finishReason := finishWireReason st ev, usage := finishUsage st ev })
      ev.toolCallIndex =
      ({ st with finishSent := true },
        { ev with finishReason := finishWireReason st ev, usage := finishUsage st ev }) := by
    refine cleanupHeaders_other _ _ _ ?_ ?_ <;> show ev.type ≠ _ <;> rw [ht] <;> simp
  have h7 : toOpenAIChunk
      ({ ev with finishReason := finishWireReason st ev, usage := finishUsage st ev })
      ev.toolCallIndex =
      .ok (some (.finish (finishWire st ev) (finishUsage st ev))) := by
    rw [toOpenAIChunk_finish _ _ (by show ev.type = _; exact ht)]
    rfl
  simp only [stepOpenAI, h1, h2, h3, h4]
  by_cases hfs : st.finishSent
  · rw [if_pos ⟨ht, hfs⟩, if_pos hfs]
  · rw [if_neg (fun hcon => hfs hcon.2), if_neg hfs]
    by_cases hhc : st.hasContent
    · rw [if_neg (fun hcon => hcon.2 hhc)]
      rw [handleFinish_finish st ev ht]
      simp only [h6, h7]
      rw [if_neg (by simp [hhc])]
    · rw [if_pos ⟨ht, hhc⟩]
      rw [if_pos (by simp [Bool.not_eq_true] at hhc; exact hhc)]

theorem stepOpenAI_nonfinish (st : MState) (ev : MEvent)
    (ht : ev.type ≠ MEventType.finish) (he : ev.type ≠ MEventType.error)
    (hinv : StMapInv st) :
    ∃ st' chs,
      stepOpenAI st ev = .ok (st', chs) ∧
      (∀ c ∈ chs, isFinishChunk c = false) ∧
      st'.finishSent = st.finishSent ∧
      st'.hasContent = (st.hasContent || isContentEvent ev) ∧
      (0 < st'.toolCallIndex ↔ (0 < st.toolCallIndex ∨ ev.type = MEventType.toolCall)) ∧
      StMapInv st' := by
  obtain ⟨hr1, hr2, hr3, hr4⟩ := reconcileIDs_state (trackReasoning (trackContent st ev) ev) ev
  obtain ⟨he1, he2, he3⟩ := reconcileIDs_event (trackReasoning (trackContent st ev) ev) ev
  set st2 := trackReasoning (trackContent st ev) ev with hst2
  set p3 := reconcileIDs st2 ev with hp3
  set p4 := linearizeIndex p3.1 p3.2 with hp4
  have hst2hc : st2.hasContent = (st.hasContent || isContentEvent ev) := by
    rw [hst2, trackReasoning_hasContent, trackContent_hasContent]
  have hst2fs : st2.finishSent = st.finishSent := by
    rw [hst2, trackReasoning_finishSent, trackContent_finishSent]
  have hst2ti : st2.toolCallIndex = st.toolCallIndex := by
    rw [hst2, trackReasoning_toolCallIndex, trackContent_toolCallIndex]
  have hst2om : st2.outputIndexMap = st.outputIndexMap := by
    rw [hst2, trackReasoning_outputIndexMap, trackContent_outputIndexMap]
  have hinv3 : StMapInv p3.1 := by
    intro hne
    rw [hr4, hst2om] at hne
    rw [hr3, hst2ti]
    exact hinv hne
  obtain ⟨hiff4, hinv4⟩ := linearizeIndex_index_iff p3.1 p3.2 hinv3
  obtain ⟨hl1, hl2⟩ := linearizeIndex_state p3.1 p3.2
  have h5 : handleFinish p4.1 p3.2 = (p4.1, p3.2) :=
    handleFinish_nonfinish p4.1 p3.2 (by rw [he1]; exact ht)
  obtain ⟨hc1, hc2, hc3, hc4⟩ := cleanupHeaders_state p4.1 p3.2 p4.2
  have hcty := cleanupHeaders_event_type p4.1 p3.2 p4.2
  set p6 := cleanupHeaders p4.1 p3.2 p4.2 with hp6
  have hg1 : ¬(p3.2.type = MEventType.finish ∧ p4.1.finishSent) := fun hcon => ht (he1 ▸ hcon.1)
  have hg2 : ¬(p3.2.type = MEventType.finish ∧ ¬p4.1.hasContent) := fun hcon => ht (he1 ▸ hcon.1)
  have hstep : stepOpenAI st ev =
      (if p3.2.type = MEventType.finish ∧ p4.1.finishSent then .ok (p4.1, [])
      else if p3.2.type = MEventType.finish ∧ ¬p4.1.hasContent then .ok (p4.1, [])
      else
        match toOpenAIChunk
            (cleanupHeaders (handleFinish p4.1 p3.2).1 (handleFinish p4.1 p3.2).2 p4.2).2
            p4.2 with
        | .error e => .error e
        | .ok none =>
          .ok ((cleanupHeaders (handleFinish p4.1 p3.2).1 (handleFinish p4.1 p3.2).2 p4.2).1, [])
        | .ok (some ch) =>
          .ok ((cleanupHeaders (handleFinish p4.1 p3.2).1 (handleFinish p4.1 p3.2).2 p4.2).1,
            [ch])) := rfl
  rw [h5] at hstep
  dsimp only [] at hstep
  rw [← hp6] at hstep
  rw [if_neg hg1, if_neg hg2] at hstep
  have hfs6 : p6.1.finishSent = st.finishSent := by rw [hc2, hl2, hr2, hst2fs]
  have hhc6 : p6.1.hasContent = (st.hasContent || isContentEvent ev) := by
    rw [hc1, hl1, hr1, hst2hc]
  have hiff6 : 0 < p6.1.toolCallIndex ↔
      (0 < st.toolCallIndex ∨ ev.type = MEventType.toolCall) := by
    rw [hc3]
    rw [hr3, hst2ti, he1] at hiff4
    exact hiff4
  have hinv6 : StMapInv p6.1 := by
    intro hne
    rw [hc4] at hne
    rw [hc3]
    exact hinv4 hne
  have hty6 : p6.2.type ≠ MEventType.finish := by rw [hcty, he1]; exact ht
  rcases hch : toOpenAIChunk p6.2 p4.2 with e | oc
  · have herr := toOpenAIChunk_error _ _ _ hch
    rw [hcty, he1] at herr
    exact absurd herr he
  · rcases oc with _ | c
    · rw [hch] at hstep
      exact ⟨p6.1, [], hstep, by simp, hfs6, hhc6, hiff6, hinv6⟩
    · rw [hch] at hstep
      refine ⟨p6.1, [c], hstep, ?_, hfs6, hhc6, hiff6, hinv6⟩
      intro x hx
      rw [List.mem_singleton] at hx
      subst hx
      exact toOpenAIChunk_not_finish _ _ _ hty6 hch

/-- Specification-side model of `FinishSent` along a stream: a `Finish` event
sets the flag exactly when content has been seen (counting the event itself,
as the machine tracks content first). -/
def finSent (fs hc : Bool) : List MEvent → Bool
  | [] => fs
  | ev :: rest =>
    finSent (fs || ((ev.type = MEventType.finish : Bool) && (hc || isContentEvent ev)))
      (hc || isContentEvent ev) rest

/-- Specification-side count of emitted finish chunks along a stream. -/
def finCount (fs hc : Bool) : List MEvent → Nat
  | [] => 0
  | ev :: rest =>
    if ev.type = MEventType.finish ∧ fs = false ∧ (hc || isContentEvent ev) = true then
      1 + finCount true (hc || isContentEvent ev) rest
    else finCount fs (hc || isContentEvent ev) rest

theorem finSent_cons (fs hc : Bool) (ev : MEvent) (rest : List MEvent) :
    finSent fs hc (ev :: rest) =
      finSent (fs || ((ev.type = MEventType.finish : Bool) && (hc || isContentEvent ev)))
        (hc || isContentEvent ev) rest := rfl

theorem finCount_cons (fs hc : Bool) (ev : MEvent) (rest : List MEvent) :
    finCount fs hc (ev :: rest) =
      if ev.type = MEventType.finish ∧ fs = false ∧ (hc || isContentEvent ev) = true then
        1 + finCount true (hc || isContentEvent ev) rest
      else finCount fs (hc || isContentEvent ev) rest := rfl

theorem finCount_fs_true : ∀ (evs : List MEvent) (hc : Bool), finCount true hc evs = 0
  | [], _ => rfl
  | ev :: rest, hc => by
    rw [finCount_cons, if_neg]
    · exact finCount_fs_true rest _
    · rintro ⟨_, hfs, _⟩
      exact absurd hfs (by decide)

theorem finCount_le_one : ∀ (evs : List MEvent) (fs hc : Bool), finCount fs hc evs ≤ 1
  | [], _, _ => by simp [finCount]
  | ev :: rest, fs, hc => by
    rw [finCount_cons]
    split
    · rw [finCount_fs_true]
    · exact finCount_le_one rest _ _

theorem finSent_no_finish : ∀ (evs : List MEvent) (fs hc : Bool),
    (∀ e ∈ evs, e.type ≠ MEventType.finish) → finSent fs hc evs = fs
  | [], _, _, _ => rfl
  | ev :: rest, fs, hc, h => by
    rw [finSent_cons]
    have hev : ev.type ≠ MEventType.finish := h ev (List.mem_cons_self _ _)
    have hb : (ev.type = MEventType.finish : Bool) = false := by simp [hev]
    rw [hb]
    simp only [Bool.false_and, Bool.or_false]
    exact finSent_no_finish rest fs _ (fun e he => h e (List.mem_cons_of_mem _ he))

theorem finCount_no_finish : ∀ (evs : List MEvent) (fs hc : Bool),
    (∀ e ∈ evs, e.type ≠ MEventType.finish) → finCount fs hc evs = 0
  | [], _, _, _ => rfl
  | ev :: rest, fs, hc, h => by
    rw [finCount_cons, if_neg]
    · exact finCount_no_finish rest fs _ (fun e he => h e (List.mem_cons_of_mem _ he))
    · rintro ⟨hfin, _, _⟩
      exact h ev (List.mem_cons_self _ _) hfin

theorem wellFormedStream_tail (ev : MEvent) (rest : List MEvent)
    (h : WellFormedStream (ev :: rest)) : WellFormedStream rest :=
  fun e he => h e (List.mem_cons_of_mem _ he)

/-- The behaviour of the whole loop on a well-formed stream: it never errors,
`FinishSent`/`HasContent` follow the specification model, the linear tool-call
index is positive exactly when a tool-call event occurred, and the number of
finish chunks equals the model count. -/
theorem runOpenAI_spec : ∀ (evs : List MEvent) (st : MState),
    WellFormedStream evs → StMapInv st →
    ∃ st' chs, runOpenAI st evs = .ok (st', chs) ∧
      st'.finishSent = finSent st.finishSent st.hasContent evs ∧
      st'.hasContent = (st.hasContent || evs.any isContentEvent) ∧
      (0 < st'.toolCallIndex ↔
        (0 < st.toolCallIndex ∨ ∃ e ∈ evs, e.type = MEventType.toolCall)) ∧
      StMapInv st' ∧
      List.countP isFinishChunk chs = finCount st.finishSent st.hasContent evs
  | [], st, _, hinv => ⟨st, [], rfl, rfl, by simp, by simp, hinv, by simp [finCount]⟩
  | ev :: rest, st, hwf, hinv => by
    have hwfr : WellFormedStream rest := wellFormedStream_tail ev rest hwf
    by_cases ht : ev.type = MEventType.finish
    · obtain ⟨hbc, hbr, hbt⟩ := (hwf ev (List.mem_cons_self _ _)).2.1 ht
      have hic : isContentEvent ev = false := by simp [isContentEvent, hbc, hbr, hbt]
      have hstep := stepOpenAI_finish st ev ht hbc hbr hbt
      have htb : (ev.type = MEventType.finish : Bool) = true := by simp [ht]
      by_cases hfs : st.finishSent
      · rw [if_pos hfs] at hstep
        obtain ⟨st', chs, hrun, H1, H2, H3, H4, H5⟩ := runOpenAI_spec rest st hwfr hinv
        refine ⟨st', chs, ?_, ?_, ?_, ?_, H4, ?_⟩
        · simp only [runOpenAI, hstep, hrun, List.nil_append]
        · rw [H1, finSent_cons]
          simp [htb, hic, hfs]
        · rw [H2, List.any_cons, hic]
          simp
        · rw [H3]
          constructor
          · rintro (h | ⟨e, he2, hte⟩)
            · exact Or.inl h
            · exact Or.inr ⟨e, List.mem_cons_of_mem _ he2, hte⟩
          · rintro (h | ⟨e, he2, hte⟩)
            · exact Or.inl h
            · rcases List.mem_cons.mp he2 with rfl | he3
              · exact absurd hte (by rw [ht]; simp)
              · exact Or.inr ⟨e, he3, hte⟩
        · rw [H5, finCount_cons, if_neg]
          · rw [hic]
            simp
          · rintro ⟨_, hfsf, _⟩
            rw [hfs] at hfsf
            exact absurd hfsf (by decide)
      · have hfsb : st.finishSent = false := by
          simp only [Bool.not_eq_true] at hfs
          exact hfs
        by_cases hhc : st.hasContent
        · rw [if_neg hfs, if_neg (by simp [hhc])] at hstep
          have hinvF : StMapInv { st with finishSent := true } := fun hne => hinv hne
          obtain ⟨st', chs, hrun, H1, H2, H3, H4, H5⟩ :=
            runOpenAI_spec rest { st with finishSent := true } hwfr hinvF
          dsimp only [] at H1 H2 H3 H5
          refine ⟨st', OAChunk.finish (finishWire st ev) (finishUsage st ev) :: chs,
            ?_, ?_, ?_, ?_, H4, ?_⟩
          · simp only [runOpenAI, hstep, hrun, List.singleton_append]
          · rw [H1, finSent_cons]
            simp [htb, hic, hfsb, hhc]
          · rw [H2, List.any_cons]
            simp [hic, hhc]
          · rw [H3]
            constructor
            · rintro (h | ⟨e, he2, hte⟩)
              · exact Or.inl h
              · exact Or.inr ⟨e, List.mem_cons_of_mem _ he2, hte⟩
            · rintro (h | ⟨e, he2, hte⟩)
              · exact Or.inl h
              · rcases List.mem_cons.mp he2 with rfl | he3
                · exact absurd hte (by rw [ht]; simp)
                · exact Or.inr ⟨e, he3, hte⟩
          · have hcnd : ev.type = MEventType.finish ∧ st.finishSent = false ∧
                (st.hasContent || isContentEvent ev) = true := ⟨ht, hfsb, by simp [hic, hhc]⟩
            rw [List.countP_cons, H5, finCount_cons, if_pos hcnd]
            simp [isFinishChunk, hic, hhc]
            omega
        · have hhcb : st.hasContent = false := by
            simp only [Bool.not_eq_true] at hhc
            exact hhc
          rw [if_neg hfs, if_pos (by rw [hhcb])] at hstep
          obtain ⟨st', chs, hrun, H1, H2, H3, H4, H5⟩ := runOpenAI_spec rest st hwfr hinv
          refine ⟨st', chs, ?_, ?_, ?_, ?_, H4, ?_⟩
          · simp only [runOpenAI, hstep, hrun, List.nil_append]
          · rw [H1, finSent_cons]
            simp [htb, hic, hfsb, hhcb]
          · rw [H2, List.any_cons, hic]
            simp
          · rw [H3]
            constructor
            · rintro (h | ⟨e, he2, hte⟩)
              · exact Or.inl h
              · exact Or.inr ⟨e, List.mem_cons_of_mem _ he2, hte⟩
            · rintro (h | ⟨e, he2, hte⟩)
              · exact Or.inl h
              · rcases List.mem_cons.mp he2 with rfl | he3
                · exact absurd hte (by rw [ht]; simp)
                · exact Or.inr ⟨e, he3, hte⟩
          · rw [H5, finCount_cons, if_neg]
            · rw [hic]
              simp
            · rintro ⟨_, _, hcc⟩
              rw [hic, hhcb] at hcc
              simp at hcc
    · have he : ev.type ≠ MEventType.error := (hwf ev (List.mem_cons_self _ _)).1
      obtain ⟨st1, chs1, hstep, hnof, hfs1, hhc1, hiff1, hinv1⟩ :=
        stepOpenAI_nonfinish st ev ht he hinv
      obtain ⟨st', chs, hrun, H1, H2, H3, H4, H5⟩ := runOpenAI_spec rest st1 hwfr hinv1
      have htb : (ev.type = MEventType.finish : Bool) = false := by simp [ht]
      refine ⟨st', chs1 ++ chs, ?_, ?_, ?_, ?_, H4, ?_⟩
      · simp only [runOpenAI, hstep, hrun]
      · rw [H1, hfs1, hhc1, finSent_cons]
        simp [htb]
      · rw [H2, hhc1, List.any_cons]
        simp [Bool.or_assoc]
      · rw [H3, hiff1]
        constructor
        · rintro ((h | h) | ⟨e, he2, hte⟩)
          · exact Or.inl h
          · exact Or.inr ⟨ev, List.mem_cons_self _ _, h⟩
          · exact Or.inr ⟨e, List.mem_cons_of_mem _ he2, hte⟩
        · rintro (h | ⟨e, he2, hte⟩)
          · exact Or.inl (Or.inl h)
          · rcases List.mem_cons.mp he2 with rfl | he3
            · exact Or.inl (Or.inr hte)
            · exact Or.inr ⟨e, he3, hte⟩
      · rw [List.countP_append, H5, hfs1, hhc1, finCount_cons, if_neg]
        · have hz : List.countP isFinishChunk chs1 = 0 := by
            rw [List.countP_eq_zero]
            intro c hcm
            rw [hnof c hcm]
            simp
          rw [hz]
          simp
        · rintro ⟨hfin, _, _⟩
          exact ht hfin

/-- A well-formed `Finish` event carries no content. -/
theorem isContentEvent_of_finish_wf (evs : List MEvent) (hwf : WellFormedStream evs)
    (e : MEvent) (he : e ∈ evs) (ht : e.type = MEventType.finish) :
    isContentEvent e = false := by
  obtain ⟨hc, hr, htc⟩ := (hwf e he).2.1 ht
  simp [isContentEvent, hc, hr, htc]

/-- The model count is 1 exactly when some `Finish` event is preceded by
content (or content was already seen). -/
theorem finCount_false_eq_one_iff : ∀ (evs : List MEvent), WellFormedStream evs → ∀ (hc : Bool),
    (finCount false hc evs = 1 ↔
      ∃ pre fin post, evs = pre ++ fin :: post ∧ fin.type = MEventType.finish ∧
        (hc = true ∨ ∃ e ∈ pre, isContentEvent e = true))
  | [], _, hc => by
    constructor
    · intro h
      simp [finCount] at h
    · rintro ⟨pre, fin, post, heq, _, _⟩
      exact absurd heq (by simp)
  | ev :: rest, hwf, hc => by
    have hwfr := wellFormedStream_tail ev rest hwf
    by_cases ht : ev.type = MEventType.finish
    · have hic := isContentEvent_of_finish_wf _ hwf ev (List.mem_cons_self _ _) ht
      by_cases hh : hc = true
      · rw [finCount_cons, if_pos ⟨ht, rfl, by simp [hic, hh]⟩, finCount_fs_true]
        constructor
        · intro _
          exact ⟨[], ev, rest, rfl, ht, Or.inl hh⟩
        · intro _
          rfl
      · have hcb : hc = false := by
          simp only [Bool.not_eq_true] at hh
          exact hh
        subst hcb
        rw [finCount_cons, if_neg (by rintro ⟨_, _, hcc⟩; rw [hic] at hcc; simp at hcc)]
        have harg : (false || isContentEvent ev) = false := by simp [hic]
        rw [harg, finCount_false_eq_one_iff rest hwfr false]
        constructor
        · rintro ⟨pre, fin, post, heq, hfin, hcond⟩
          refine ⟨ev :: pre, fin, post, by rw [heq, List.cons_append], hfin, ?_⟩
          rcases hcond with h | ⟨e, he, hce⟩
          · exact absurd h (by decide)
          · exact Or.inr ⟨e, List.mem_cons_of_mem _ he, hce⟩
        · rintro ⟨pre, fin, post, heq, hfin, hcond⟩
          rcases pre with _ | ⟨p0, pre2⟩
          · rcases hcond with h | ⟨e, he, _⟩
            · exact absurd h (by decide)
            · simp at he
          · rw [List.cons_append] at heq
            injection heq with h1 h2
            subst h1
            subst h2
            refine ⟨pre2, fin, post, rfl, hfin, ?_⟩
            rcases hcond with h | ⟨e, he, hce⟩
            · exact absurd h (by decide)
            · rcases List.mem_cons.mp he with rfl | he2
              · rw [hic] at hce
                exact absurd hce (by decide)
              · exact Or.inr ⟨e, he2, hce⟩
    · rw [finCount_cons, if_neg (by rintro ⟨hfin, _, _⟩; exact ht hfin)]
      rw [finCount_false_eq_one_iff rest hwfr (hc || isContentEvent ev)]
      constructor
      · rintro ⟨pre, fin, post, heq, hfin, hcond⟩
        refine ⟨ev :: pre, fin, post, by rw [heq, List.cons_append], hfin, ?_⟩
        rcases hcond with h | ⟨e, he, hce⟩
        · rw [Bool.or_eq_true] at h
          rcases h with h1 | h2
          · exact Or.inl h1
          · exact Or.inr ⟨ev, List.mem_cons_self _ _, h2⟩
        · exact Or.inr ⟨e, List.mem_cons_of_mem _ he, hce⟩
      · rintro ⟨pre, fin, post, heq, hfin, hcond⟩
        rcases pre with _ | ⟨p0, pre2⟩
        · rw [List.nil_append] at heq
          injection heq with h1 h2
          exact absurd (by rw [h1]; exact hfin) ht
        · rw [List.cons_append] at heq
          injection heq with h1 h2
          subst h1
          subst h2
          refine ⟨pre2, fin, post, rfl, hfin, ?_⟩
          rcases hcond with h | ⟨e, he, hce⟩
          · exact Or.inl (by rw [h]; rfl)
          · rcases List.mem_cons.mp he with rfl | he2
            · exact Or.inl (by rw [hce]; simp)
            · exact Or.inr ⟨e, he2, hce⟩

theorem runOpenAI_append : ∀ (xs ys : List MEvent) (st : MState),
    runOpenAI st (xs ++ ys) =
      match runOpenAI st xs with
      | .error e => .error e
      | .ok (st1, cs) =>
        match runOpenAI st1 ys with
        | .error e => .error e
        | .ok (st2, ds) => .ok (st2, cs ++ ds)
  | [], ys, st => by
    simp only [List.nil_append, runOpenAI]
    rcases h : runOpenAI st ys with e | ⟨st2, ds⟩
    · rfl
    · simp
  | x :: xs, ys, st => by
    simp only [List.cons_append, runOpenAI]
    rcases hs : stepOpenAI st x with e | ⟨st1, cs⟩
    · rfl
    · dsimp only []
      have hxy : xs.append ys = xs ++ ys := rfl
      rw [hxy, runOpenAI_append xs ys st1]
      cases hxs : runOpenAI st1 xs with
      | error e => rfl
      | ok p =>
        obtain ⟨st2, ds⟩ := p
        dsimp only []
        cases hys : runOpenAI st2 ys with
        | error e => rfl
        | ok q =>
          obtain ⟨st3, es⟩ := q
          dsimp only []
          rw [List.append_assoc]

/-- A one-token content event used as a concrete stream element. -/
def tokenHiEvent : MEvent := { type := MEventType.token, content := "hi" }

/-- A bare `Finish(Stop)` event as every parser emits it. -/
def stopFinishEvent : MEvent :=
  { type := MEventType.finish, finishReason := some FinishReason.stop }

/-- C2: over one streaming state machine instance (OpenAI/Cline target) the
loop emits at most one finish chunk, and emits exactly one iff some upstream
`Finish` event is preceded by a content event (text, reasoning or tool call);
in particular a duplicate `Finish` and a `Finish` with no prior content are
silently dropped, and no finish chunk ever precedes all content. -/
theorem streamFinish_once_after_content (evs : List MEvent) (st' : MState)
    (chs : List OAChunk) (hwf : WellFormedStream evs)
    (hrun : runOpenAI {} evs = .ok (st', chs)) :
    List.countP isFinishChunk chs ≤ 1 ∧
    (List.countP isFinishChunk chs = 1 ↔
      ∃ pre fin post, evs = pre ++ fin :: post ∧ fin.type = MEventType.finish ∧
        ∃ e ∈ pre, isContentEvent e = true) := by
  obtain ⟨st2, chs2, hrun2, _, _, _, _, hcnt⟩ :=
    runOpenAI_spec evs {} hwf (fun hne => absurd rfl hne)
  rw [hrun] at hrun2
  injection hrun2 with hp
  have h2 : chs = chs2 := congrArg Prod.snd hp
  dsimp only [] at hcnt
  rw [h2, hcnt]
  refine ⟨finCount_le_one evs false false, ?_⟩
  have hiff := finCount_false_eq_one_iff evs hwf false
  rw [hiff]
  constructor
  · rintro ⟨pre, fin, post, heq, hfin, hcond⟩
    rcases hcond with hx | hx
    · exact absurd hx (by decide)
    · exact ⟨pre, fin, post, heq, hfin, hx⟩
  · rintro ⟨pre, fin, post, heq, hfin, hx⟩
    exact ⟨pre, fin, post, heq, hfin, Or.inr hx⟩

theorem streamFinish_once_after_content_witness :
    List.countP isFinishChunk
        [OAChunk.token (some "hi"), OAChunk.finish "stop" none] ≤ 1 ∧
    (List.countP isFinishChunk
        [OAChunk.token (some "hi"), OAChunk.finish "stop" none] = 1 ↔
      ∃ pre fin post,
        [tokenHiEvent, stopFinishEvent] = pre ++ fin :: post ∧
        fin.type = MEventType.finish ∧ ∃ e ∈ pre, isContentEvent e = true) :=
  streamFinish_once_after_content [tokenHiEvent, stopFinishEvent]
    { hasContent := true, finishSent := true }
    [OAChunk.token (some "hi"), OAChunk.finish "stop" none]
    (by unfold WellFormedStream; decide) (by rfl)

/-- C3: when the machine processes a `Finish(Stop)` event that was preceded by
content and is the first `Finish` of the stream, the single emitted finish
chunk carries `finish_reason` `"tool_calls"` exactly when a tool-call event
occurred earlier in the stream, and `"stop"` otherwise. -/
theorem finishStop_rewritten_toolCalls (pre : List MEvent) (fin : MEvent)
    (post : List MEvent) (hwf : WellFormedStream (pre ++ fin :: post))
    (hnf : ∀ e ∈ pre, e.type ≠ MEventType.finish)
    (hcontent : ∃ e ∈ pre, isContentEvent e = true)
    (ht : fin.type = MEventType.finish)
    (hstop : fin.finishReason = some FinishReason.stop) :
    ∃ st' chs u,
      runOpenAI {} (pre ++ fin :: post) = .ok (st', chs) ∧
      chs.filter isFinishChunk =
        [OAChunk.finish
          (if pre.any (fun e => (e.type = MEventType.toolCall : Bool)) then "tool_calls"
            else "stop") u] := by
  have hwfpre : WellFormedStream pre := fun e he => hwf e (List.mem_append_left _ he)
  have hwffin := hwf fin (List.mem_append_right _ (List.mem_cons_self _ _))
  have hwfpost : WellFormedStream post :=
    fun e he => hwf e (List.mem_append_right _ (List.mem_cons_of_mem _ he))
  obtain ⟨st1, cs, hrun1, H1, H2, H3, H4, H5⟩ :=
    runOpenAI_spec pre {} hwfpre (fun hne => absurd rfl hne)
  dsimp only [] at H1 H2 H3 H5
  have hfs1 : st1.finishSent = false := by
    rw [H1]
    exact finSent_no_finish pre false false hnf
  have hhc1 : st1.hasContent = true := by
    rw [H2]
    obtain ⟨e, he, hce⟩ := hcontent
    simp only [Bool.false_or]
    exact List.any_eq_true.mpr ⟨e, he, hce⟩
  have hcs : cs.filter isFinishChunk = [] := by
    have hz : List.countP isFinishChunk cs = 0 := by
      rw [H5]
      exact finCount_no_finish pre _ _ hnf
    rw [List.countP_eq_zero] at hz
    rw [List.filter_eq_nil_iff]
    intro a ha
    exact hz a ha
  obtain ⟨hbc, hbr, hbt⟩ := hwffin.2.1 ht
  have hstep := stepOpenAI_finish st1 fin ht hbc hbr hbt
  rw [if_neg (by rw [hfs1]; exact (by decide : ¬(false = true))),
    if_neg (by rw [hhc1]; exact (by decide : ¬(true = false)))] at hstep
  have hinvF : StMapInv { st1 with finishSent := true } := fun hne => H4 hne
  obtain ⟨st2, ds, hrun3, G1, G2, G3, G4, G5⟩ :=
    runOpenAI_spec post { st1 with finishSent := true } hwfpost hinvF
  dsimp only [] at G5
  have hds : ds.filter isFinishChunk = [] := by
    have hz : List.countP isFinishChunk ds = 0 := by
      rw [G5]
      exact finCount_fs_true post _
    rw [List.countP_eq_zero] at hz
    rw [List.filter_eq_nil_iff]
    intro a ha
    exact hz a ha
  have hwire : finishWire st1 fin =
      (if pre.any (fun e => (e.type = MEventType.toolCall : Bool)) then "tool_calls"
        else "stop") := by
    unfold finishWire finishWireReason
    by_cases hany : pre.any (fun e => (e.type = MEventType.toolCall : Bool)) = true
    · have hpos : 0 < st1.toolCallIndex := by
        refine H3.mpr (Or.inr ?_)
        rw [List.any_eq_true] at hany
        obtain ⟨e, he, hte⟩ := hany
        exact ⟨e, he, of_decide_eq_true hte⟩
      rw [if_pos ⟨hpos, hstop⟩, if_pos hany]
      rfl
    · have hnot : ¬(0 < st1.toolCallIndex) := by
        intro hpos
        rcases H3.mp hpos with h0 | ⟨e, he, hte⟩
        · exact absurd h0 (by decide)
        · exact hany (List.any_eq_true.mpr ⟨e, he, decide_eq_true hte⟩)
      rw [if_neg (fun hcon => hnot hcon.1), if_neg hany, hstop]
      rfl
  refine ⟨st2, cs ++ (OAChunk.finish (finishWire st1 fin) (finishUsage st1 fin) :: ds),
    finishUsage st1 fin, ?_, ?_⟩
  · rw [runOpenAI_append pre (fin :: post) {}]
    rw [hrun1]
    dsimp only []
    simp only [runOpenAI, hstep, hrun3]
    rfl
  · rw [List.filter_append, hcs, List.nil_append, List.filter_cons]
    rw [if_pos (by simp [isFinishChunk])]
    rw [hds, hwire]

theorem finishStop_rewritten_toolCalls_witness :
    ∃ st' chs u,
      runOpenAI {} ([mkToolCallEventAt 0] ++ stopFinishEvent :: []) = .ok (st', chs) ∧
      chs.filter isFinishChunk =
        [OAChunk.finish
          (if [mkToolCallEventAt 0].any (fun e => (e.type = MEventType.toolCall : Bool))
            then "tool_calls" else "stop") u] :=
  finishStop_rewritten_toolCalls [mkToolCallEventAt 0] stopFinishEvent []
    (by unfold WellFormedStream; decide) (by decide)
    ⟨mkToolCallEventAt 0, by decide, by decide⟩ (by decide) (by decide)
